import Mathlib

/-!
Verification of the carwash dashboard analytics core (`app.py`) against its
specification.  The Python code is shallowly embedded: Python strings are
`List Char` (Python compares strings by code point, which matches the
code-point lexicographic order used here), Python arbitrary-precision
integers are `ℤ`/`ℕ`, pandas float64 cell values are modelled as exact
rationals `ℚ` for the aggregation layer, and the places where the code
genuinely depends on IEEE-754 binary64 behaviour (`float(...)` inside
`normalize_phone`, `pd.to_numeric`) are modelled by an explicit
correctly-rounded conversion implemented over `ℕ`/`ℤ` so that it can be
evaluated by the kernel.  Fallible Python operations (`float(...)`,
`int(...)`) are modelled with `Option`.
-/

set_option maxRecDepth 100000

namespace Carwash

/-- A Python string, as its list of code points. -/
abbrev Str := List Char

/-- The characters removed by Python's `str.strip()` (ASCII fragment;
the claims only exercise ASCII data). -/
def isPySpace (c : Char) : Bool :=
  c = ' ' || c = '\t' || c = '\n' || c = '\r' || c = '\x0b' || c = '\x0c'

/-- Python `str.strip()`: drop leading and trailing whitespace. -/
def pyStrip (l : Str) : Str :=
  ((l.dropWhile isPySpace).reverse.dropWhile isPySpace).reverse

/-- Python `str.lower()` (ASCII fragment). -/
def pyLower (l : Str) : Str := l.map Char.toLower

/-- Numeric value of a decimal digit character. -/
def digVal (c : Char) : ℕ := c.toNat - 48

/-- Value of a string of decimal digits (most significant first). -/
def natOfDigits (l : Str) : ℕ := l.foldl (fun a c => a * 10 + digVal c) 0

/-- Fuel-driven decimal rendering of a natural number (the fuel makes the
recursion structural so the kernel can evaluate it). -/
def natDecAux : ℕ → ℕ → Str
  | 0, _ => []
  | fuel + 1, n =>
    if n < 10 then [Nat.digitChar n]
    else natDecAux fuel (n / 10) ++ [Nat.digitChar (n % 10)]

/-- Python `str(n)` for a nonnegative integer: minimal decimal rendering. -/
def natDec (n : ℕ) : Str := natDecAux (n + 1) n

/-- Python `str(z)` for an integer: a `-` sign followed by the digits. -/
def intDec (z : ℤ) : Str :=
  if z < 0 then '-' :: natDec z.natAbs else natDec z.natAbs

/-- Fuel-driven base-2 logarithm (`2 ^ log2N n ≤ n < 2 ^ (log2N n + 1)`
for `n ≥ 1`), structural so the kernel can evaluate it. -/
def log2Aux : ℕ → ℕ → ℕ
  | 0, _ => 0
  | fuel + 1, n => if n ≤ 1 then 0 else log2Aux fuel (n / 2) + 1

/-- Floor base-2 logarithm of a natural number. -/
def log2N (n : ℕ) : ℕ := log2Aux n n

/-- Decide `2 ^ c ≤ A / B` for naturals `A B ≥ 1` and an integer `c`,
using only integer arithmetic. -/
def le2z (c : ℤ) (A B : ℕ) : Bool :=
  if 0 ≤ c then decide (B * 2 ^ c.toNat ≤ A) else decide (B ≤ A * 2 ^ (-c).toNat)

/-- Floor base-2 logarithm of the positive rational `A / B`. -/
def flogP (A B : ℕ) : ℤ :=
  let c : ℤ := (log2N A : ℤ) - (log2N B : ℤ)
  if le2z c A B then c else c - 1

/-- The fraction `(A / B) / 2 ^ e` as a pair of naturals. -/
def scaledPair (A B : ℕ) (e : ℤ) : ℕ × ℕ :=
  if 0 ≤ e then (A, B * 2 ^ e.toNat) else (A * 2 ^ (-e).toNat, B)

/-- Round the nonnegative fraction `A / B` to the nearest integer,
ties to even (the IEEE-754 default rounding). -/
def roundHalfEven (A B : ℕ) : ℕ :=
  let q := A / B
  let r := A % B
  if 2 * r < B then q
  else if B < 2 * r then q + 1
  else if q % 2 = 0 then q else q + 1

/-- Whether the magnitude `n * 2 ^ e` overflows binary64 (is `≥ 2 ^ 1024`). -/
def ovf (n : ℕ) (e : ℤ) : Bool :=
  if 0 ≤ e then decide (2 ^ 1024 ≤ n * 2 ^ e.toNat)
  else decide (2 ^ 1024 * 2 ^ (-e).toNat ≤ n)

/-- Correctly round the positive rational `A / B` (`A, B ≥ 1`) to the
nearest IEEE-754 binary64 value `n * 2 ^ e` (ties to even, subnormals
quantized at `2 ^ (-1074)`), or `none` on overflow to infinity. -/
def roundPosToDouble (A B : ℕ) : Option (ℕ × ℤ) :=
  let e := max (flogP A B - 52) (-1074)
  let p := scaledPair A B e
  let n := roundHalfEven p.1 p.2
  if ovf n e then none else some (n, e)

/-- The result of Python `float(...)`: a finite binary64 value
`(-1) ^ neg * n * 2 ^ e`, a signed infinity, or a NaN. -/
inductive PyVal where
  | finite (neg : Bool) (n : ℕ) (e : ℤ)
  | inf (neg : Bool)
  | nan
deriving DecidableEq

/-- Convert the decimal value `(-1) ^ neg * M * 10 ^ E` to the nearest
binary64 value (overflow gives a signed infinity). -/
def mkFloat (neg : Bool) (M : ℕ) (E : ℤ) : PyVal :=
  if M = 0 then .finite neg 0 0
  else
    let AB : ℕ × ℕ := if 0 ≤ E then (M * 10 ^ E.toNat, 1) else (M, 10 ^ (-E).toNat)
    match roundPosToDouble AB.1 AB.2 with
    | some (n, e) => .finite neg n e
    | none => .inf neg

/-- Exact rational value of a `PyVal` (`none` for infinities and NaN). -/
def pyValQ : PyVal → Option ℚ
  | .finite neg n e => some ((if neg then -1 else 1) * (n : ℚ) * (2 : ℚ) ^ e)
  | _ => none

/-- A rational value is representable as a finite IEEE-754 binary64
number: a significand below `2 ^ 53` times a power of two, within the
binary64 exponent range. -/
def Representable (q : ℚ) : Prop :=
  ∃ m k : ℤ, q = (m : ℚ) * (2 : ℚ) ^ k ∧ m.natAbs < 2 ^ 53 ∧ -1074 ≤ k ∧
    |q| < (2 : ℚ) ^ (1024 : ℤ)

/-- Exponent part of a float literal: empty, or `e`/`E` followed by an
optionally signed nonempty digit string. -/
def parseExpPart : Str → Option ℤ
  | [] => some 0
  | c :: rest =>
    if c = 'e' ∨ c = 'E' then
      match rest with
      | [] => none
      | d :: ds =>
        if d = '+' then
          if ds ≠ [] ∧ ds.all Char.isDigit then some (natOfDigits ds) else none
        else if d = '-' then
          if ds ≠ [] ∧ ds.all Char.isDigit then some (-(natOfDigits ds : ℤ)) else none
        else if (d :: ds).all Char.isDigit then some (natOfDigits (d :: ds))
        else none
    else none

/-- Mantissa-with-exponent helper: `ip` integer digits already read, no
fractional part, `r1` the rest of the literal (an optional exponent). -/
def mantNoFrac (ip r1 : Str) : Option (ℕ × ℤ) :=
  if ip = [] then none
  else
    match parseExpPart r1 with
    | some ex => some (natOfDigits ip, ex)
    | none => none

/-- Unsigned decimal float literal `digits [. digits] [exp]` (at least one
mantissa digit), returned as `(M, E)` with value `M * 10 ^ E`. -/
def parseMantExp (l : Str) : Option (ℕ × ℤ) :=
  let ip := l.takeWhile Char.isDigit
  let r1 := l.dropWhile Char.isDigit
  match r1 with
  | [] => mantNoFrac ip []
  | c :: r2 =>
    if c = '.' then
      let fp := r2.takeWhile Char.isDigit
      let r3 := r2.dropWhile Char.isDigit
      if ip = [] ∧ fp = [] then none
      else
        match parseExpPart r3 with
        | some ex =>
          some (natOfDigits ip * 10 ^ fp.length + natOfDigits fp, ex - fp.length)
        | none => none
    else mantNoFrac ip (c :: r2)

/-- CPython underscore rule for numeric literals passed to `float`:
every `_` must sit between two digits.  Scans with the previous
character in hand. -/
def underscoreOKAux (prev : Char) : Str → Bool
  | [] => true
  | c :: rest =>
    if c = '_' then
      match rest with
      | [] => false
      | d :: rest2 => prev.isDigit && d.isDigit && underscoreOKAux d rest2
    else underscoreOKAux c rest

/-- Underscore validity for a whole literal (a leading `_` is invalid). -/
def underscoreOK : Str → Bool
  | [] => true
  | c :: rest => if c = '_' then false else underscoreOKAux c rest

/-- Optional sign at the head of a stripped float literal. -/
def splitSign (t : Str) : Bool × Str :=
  match t with
  | [] => (false, [])
  | c :: r =>
    if c = '+' then (false, r)
    else if c = '-' then (true, r)
    else (false, c :: r)

/-- The body of the float parser after sign handling: accept
`inf`/`infinity`/`nan` case-insensitively, otherwise validate underscore
grouping (when `allowU`), parse the decimal literal and round it to
binary64. -/
def parseBody (allowU : Bool) (neg : Bool) (body : Str) : Option PyVal :=
  let low := pyLower body
  if low = "inf".data ∨ low = "infinity".data then some (.inf neg)
  else if low = "nan".data then some .nan
  else
    let body2 : Option Str :=
      if allowU then
        if underscoreOK body then some (body.filter (fun c => c ≠ '_')) else none
      else some body
    match body2 with
    | none => none
    | some b =>
      match parseMantExp b with
      | some me => some (mkFloat neg me.1 me.2)
      | none => none

/-- Shared string-to-float parser: strip whitespace, take an optional
sign, then parse the body.  `allowU` enables CPython's underscore
grouping (`float(...)` allows it, the pandas `to_numeric` parser does
not). -/
def parseFloatAux (allowU : Bool) (l : Str) : Option PyVal :=
  parseBody allowU (splitSign (pyStrip l)).1 (splitSign (pyStrip l)).2

/-- Python `float(str)`. -/
def pyFloat (l : Str) : Option PyVal := parseFloatAux true l

/-- The pandas `pd.to_numeric` string parser (no underscore grouping). -/
def pdParseNum (l : Str) : Option PyVal := parseFloatAux false l

/-- Python `int(x)` on a float: truncation toward zero; `none` models the
`OverflowError` raised on infinities and the `ValueError` raised on NaN. -/
def truncFloat : PyVal → Option ℤ
  | .finite neg n e =>
    let m : ℕ := if 0 ≤ e then n * 2 ^ e.toNat else n / 2 ^ (-e).toNat
    some (if neg then -(m : ℤ) else (m : ℤ))
  | .inf _ => none
  | .nan => none

/-- `normalize_phone` from `app.py`, on code-point lists: strip the
input; map empty/`nan`/`none` (case-insensitively) to the empty string;
otherwise replace `,` by `.`, try `float` then `int` then `str`, and on
`ValueError`/`OverflowError` fall back to keeping only digit characters
of the stripped input. -/
def normPhoneL (l : Str) : Str :=
  let t := pyStrip l
  if pyLower t = "nan".data ∨ pyLower t = "none".data ∨ t = [] then []
  else
    let c := t.map (fun ch => if ch = ',' then '.' else ch)
    match pyFloat c with
    | some v =>
      match truncFloat v with
      | some z => intDec z
      | none => t.filter Char.isDigit
    | none => t.filter Char.isDigit

/-- `normalize_phone` on Lean strings. -/
def normalize_phone (s : String) : String := ⟨normPhoneL s.data⟩

/-- The cell-cleaning chain of `load_data` for numeric columns: replace
non-breaking spaces by spaces, remove spaces, replace the comma decimal
separator by a period. -/
def cleanNumCell (l : Str) : Str :=
  ((l.map (fun c => if c = '\u00A0' then ' ' else c)).filter
      (fun c => c ≠ ' ')).map (fun c => if c = ',' then '.' else c)

/-- `pd.to_numeric(..., errors="coerce").fillna(0.0)` on one cleaned cell:
parse failures and NaN coerce to `0.0`; infinities survive. -/
def toNumericCell (l : Str) : PyVal :=
  match pdParseNum (cleanNumCell l) with
  | none => .finite false 0 0
  | some .nan => .finite false 0 0
  | some v => v



/-- One row of the loaded transaction table, with the fields consumed by
the aggregators.  `phone` is the raw `Телефон` cell (`none` models NaN),
`ts` the parsed payment timestamp in whole seconds (`none` models NaT),
and the money columns are modelled as exact rationals. -/
structure TxRec where
  phone : Option Str
  ts : Option ℤ
  money : ℚ
  bonus : ℚ
  box : ℚ
  total : ℚ
deriving DecidableEq

/-- A record that survived `dropna(subset=["Дата оплаты", "Телефон"])`. -/
structure CRec where
  phone : Str
  ts : ℤ
  money : ℚ
  bonus : ℚ
  box : ℚ
  total : ℚ
deriving DecidableEq

/-- Drop records with a missing timestamp or phone. -/
def cleanRecs (l : List TxRec) : List CRec :=
  l.filterMap fun r =>
    match r.phone, r.ts with
    | some p, some t => some ⟨p, t, r.money, r.bonus, r.box, r.total⟩
    | _, _ => none

/-- Code-point lexicographic comparison of Python strings (`Bool` so the
kernel can evaluate it). -/
def lexLeB : Str → Str → Bool
  | [], _ => true
  | _ :: _, [] => false
  | a :: as, b :: bs =>
    if a.toNat < b.toNat then true
    else if b.toNat < a.toNat then false
    else lexLeB as bs

/-- Python string `≤`. -/
def lexLe (a b : Str) : Prop := lexLeB a b = true

/-- Python string `<`. -/
def lexLt (a b : Str) : Prop := lexLe a b ∧ a ≠ b

instance : DecidableRel lexLe := fun a b => decEq (lexLeB a b) true

instance : DecidableRel lexLt := fun _ _ => instDecidableAnd

/-- The `sort_values(["Телефон", "Дата оплаты"])` order: by raw phone,
then by timestamp. -/
def recLe (a b : CRec) : Prop :=
  lexLt a.phone b.phone ∨ (a.phone = b.phone ∧ a.ts ≤ b.ts)

instance : DecidableRel recLe := fun _ _ => instDecidableOr

/-- The sorted, cleaned record list that the visit scan iterates over. -/
def sortRecs (l : List TxRec) : List CRec :=
  List.insertionSort recLe (cleanRecs l)

/-- The new-visit condition of the scan in `group_transactions_to_visits`:
the stripped phone changed, or the gap to the previous record, in
minutes, strictly exceeds the window. -/
def visitBreak (w : ℚ) (prev cur : CRec) : Prop :=
  pyStrip cur.phone ≠ pyStrip prev.phone ∨ ((cur.ts : ℚ) - (prev.ts : ℚ)) / 60 > w

/-- Decidability of `visitBreak`, via the gap test reduced to integer
arithmetic so the kernel can evaluate it. -/
instance (w : ℚ) (prev cur : CRec) : Decidable (visitBreak w prev cur) :=
  @instDecidableOr _ _ inferInstance
    (decidable_of_iff (60 * w.num < (cur.ts - prev.ts) * w.den) (by
      rw [gt_iff_lt, lt_div_iff₀ (by norm_num : (0 : ℚ) < 60)]
      rw [show (cur.ts : ℚ) - (prev.ts : ℚ) = ((cur.ts - prev.ts : ℤ) : ℚ) by push_cast; ring]
      constructor
      · intro h
        have hw : w = (w.num : ℚ) / (w.den : ℚ) := (Rat.num_div_den w).symm
        rw [hw, div_mul_eq_mul_div,
          div_lt_iff₀ (by exact_mod_cast w.pos : (0 : ℚ) < (w.den : ℚ))]
        have h2 : ((w.num * 60 : ℤ) : ℚ) < (((cur.ts - prev.ts) * w.den : ℤ) : ℚ) := by
          exact_mod_cast (by linarith : w.num * 60 < (cur.ts - prev.ts) * w.den)
        push_cast at h2 ⊢
        linarith
      · intro h
        have hw : w = (w.num : ℚ) / (w.den : ℚ) := (Rat.num_div_den w).symm
        rw [hw, div_mul_eq_mul_div,
          div_lt_iff₀ (by exact_mod_cast w.pos : (0 : ℚ) < (w.den : ℚ))] at h
        have h2 : ((w.num * 60 : ℤ) : ℚ) < (((cur.ts - prev.ts) * w.den : ℤ) : ℚ) := by
          push_cast at h ⊢
          linarith
        have h3 : w.num * 60 < (cur.ts - prev.ts) * w.den := by exact_mod_cast h2
        linarith))

/-- The scan of `group_transactions_to_visits`, producing the list of
visits as runs of records.  `prev` is the previously seen record,
`acc` the current visit in reverse order. -/
def scanRuns (w : ℚ) : CRec → List CRec → List CRec → List (List CRec)
  | _, acc, [] => [acc.reverse]
  | prev, acc, r :: rs =>
    if visitBreak w prev r then acc.reverse :: scanRuns w r [r] rs
    else scanRuns w r (r :: acc) rs

/-- Partition a (sorted) record list into visit runs. -/
def visitRuns (w : ℚ) : List CRec → List (List CRec)
  | [] => []
  | r :: rs => scanRuns w r [r] rs

/-- One aggregated visit: sums of the money columns and the first
member's phone and timestamp. -/
structure Visit where
  phone : Str
  ts : ℤ
  visit_total : ℚ
  money : ℚ
  bonus : ℚ
  box : ℚ
deriving DecidableEq

/-- `groupby("visit_id").agg(...)` over one run. -/
def aggRun (run : List CRec) : Visit :=
  { phone := (run.headD ⟨[], 0, 0, 0, 0, 0⟩).phone
    ts := (run.headD ⟨[], 0, 0, 0, 0, 0⟩).ts
    visit_total := (run.map (·.total)).sum
    money := (run.map (·.money)).sum
    bonus := (run.map (·.bonus)).sum
    box := (run.map (·.box)).sum }

/-- `group_transactions_to_visits` from `app.py`: drop records without a
timestamp or phone, sort by (phone, timestamp), scan once starting a new
visit whenever the stripped phone changes or the gap exceeds the window,
and aggregate each visit. -/
def group_transactions_to_visits (w : ℚ) (l : List TxRec) : List Visit :=
  (visitRuns w (sortRecs l)).map aggRun

/-- One row of the LTV table. -/
structure LtvRow where
  phone : Str
  ltv : ℚ
  visits : ℕ
  transactions : ℕ
deriving DecidableEq

/-- `calculate_ltv` from `app.py`: group into visits (window 30), sum
visit totals and count visits per phone (pandas `groupby` sorts its keys
ascending), merge in the per-phone transaction counts over the raw
records, and sort by LTV descending. -/
def calculate_ltv (l : List TxRec) : List LtvRow :=
  let vs := group_transactions_to_visits 30 l
  let phones := List.insertionSort lexLe ((vs.map (·.phone)).dedup)
  let rows := phones.map fun p =>
    let pv := vs.filter (fun v => decide (v.phone = p))
    ({ phone := p
       ltv := (pv.map (·.visit_total)).sum
       visits := pv.length
       transactions := (l.filter (fun r => decide (r.phone = some p))).length } : LtvRow)
  List.insertionSort (fun a b => b.ltv ≤ a.ltv) rows

/-- The wash-set comparison result of `compare_washes`. -/
structure WashDiff where
  only_in_1 : List Str
  only_in_2 : List Str
  common : List Str
  count_1 : ℕ
  count_2 : ℕ
  count_common : ℕ
deriving DecidableEq

/-- `compare_washes` from `app.py` on the two `wash_key` columns
(`none` models NaN): deduplicated null-free key sets, their differences
and intersection, each returned in ascending (code-point lexicographic)
order as Python `sorted` produces. -/
def compare_washes (l1 l2 : List (Option Str)) : WashDiff :=
  let s1 := l1.reduceOption.dedup
  let s2 := l2.reduceOption.dedup
  { only_in_1 := List.insertionSort lexLe (s1.filter (fun x => decide (x ∉ s2)))
    only_in_2 := List.insertionSort lexLe (s2.filter (fun x => decide (x ∉ s1)))
    common := List.insertionSort lexLe (s1.filter (fun x => decide (x ∈ s2)))
    count_1 := s1.length
    count_2 := s2.length
    count_common := (s1.filter (fun x => decide (x ∈ s2))).length }

/-- `np.percentile(xs, p)` for an integer percent `p ≤ 100` with the
default linear interpolation between order statistics: position
`h = (n-1) * p / 100`, result `s[⌊h⌋] + (h - ⌊h⌋) * (s[⌊h⌋+1] - s[⌊h⌋])`.
For an integer `p` the floor and the fractional part are
`(n-1)*p / 100` and `((n-1)*p mod 100)/100` over integers.
(`np.percentile` raises on an empty array; the code never reaches that
case and the model returns 0 there.) -/
def percentile (p : ℕ) (l : List ℚ) : ℚ :=
  let s := List.insertionSort (· ≤ ·) l
  let n := s.length
  if n = 0 then 0
  else
    let pos := (n - 1) * p
    let i := pos / 100
    let frac : ℚ := ((pos % 100 : ℕ) : ℚ) / 100
    s.getD i 0 + frac * (s.getD (i + 1) 0 - s.getD i 0)

/-- The outlier block computed inline in `main`. -/
structure OutlierStats where
  q1 : ℚ
  q3 : ℚ
  upper : ℚ
  outliers : List ℚ
deriving DecidableEq

/-- The Tukey-fence outlier detector from the end of `main`: quartiles of
the `total` values by linear interpolation, `upper = q3 + 1.5 * (q3 - q1)`,
outliers are the totals strictly above `upper`. -/
def detect_outliers (l : List ℚ) : OutlierStats :=
  let q1 := percentile 25 l
  let q3 := percentile 75 l
  let upper := q3 + 1.5 * (q3 - q1)
  { q1 := q1
    q3 := q3
    upper := upper
    outliers := l.filter (fun x => decide (x > upper)) }

/-! ### Properties of the code-point lexicographic order -/

lemma char_toNat_inj {a b : Char} (h : a.toNat = b.toNat) : a = b :=
  Char.ext (UInt32.ext h)

lemma lexLeB_cons_cons (x y : Char) (xs ys : Str) :
    lexLeB (x :: xs) (y :: ys) =
      if x.toNat < y.toNat then true
      else if y.toNat < x.toNat then false
      else lexLeB xs ys := rfl

lemma lexLeB_refl : ∀ a : Str, lexLeB a a = true := by
  intro a
  induction a with
  | nil => rfl
  | cons c cs ih => simp [lexLeB, ih]

lemma lexLeB_total : ∀ a b : Str, lexLeB a b = true ∨ lexLeB b a = true := by
  intro a
  induction a with
  | nil => intro b; left; rfl
  | cons c cs ih =>
    intro b
    cases b with
    | nil => right; rfl
    | cons d ds =>
      rcases Nat.lt_trichotomy c.toNat d.toNat with h | h | h
      · left; simp [lexLeB, h]
      · rcases ih ds with h2 | h2
        · left; simp [lexLeB, h, h2]
        · right; simp [lexLeB, h.symm, h2]
      · right; simp [lexLeB, h]

lemma lexLeB_trans : ∀ a b c : Str,
    lexLeB a b = true → lexLeB b c = true → lexLeB a c = true := by
  intro a
  induction a with
  | nil => intro b c _ _; rfl
  | cons x xs ih =>
    intro b c hab hbc
    cases b with
    | nil => simp [lexLeB] at hab
    | cons y ys =>
      cases c with
      | nil => simp [lexLeB] at hbc
      | cons z zs =>
        rw [lexLeB_cons_cons] at hab hbc ⊢
        split_ifs at hab hbc ⊢ with h1 h2 h3 h4 h5 h6 h7 h8 h9 h10 h11 h12
        all_goals first
          | rfl
          | omega
          | (exact ih ys zs hab hbc)

lemma lexLeB_antisymm : ∀ a b : Str,
    lexLeB a b = true → lexLeB b a = true → a = b := by
  intro a
  induction a with
  | nil =>
    intro b _ hba
    cases b with
    | nil => rfl
    | cons d ds => simp [lexLeB] at hba
  | cons c cs ih =>
    intro b hab hba
    cases b with
    | nil => simp [lexLeB] at hab
    | cons d ds =>
      rw [lexLeB_cons_cons] at hab hba
      split_ifs at hab hba with h1 h2
      · omega
      · have hcd : c = d := char_toNat_inj (by omega)
        rw [hcd, ih ds hab hba]

lemma lexLe_refl (a : Str) : lexLe a a := lexLeB_refl a

lemma lexLe_trans {a b c : Str} (h1 : lexLe a b) (h2 : lexLe b c) : lexLe a c :=
  lexLeB_trans a b c h1 h2

lemma lexLe_antisymm {a b : Str} (h1 : lexLe a b) (h2 : lexLe b a) : a = b :=
  lexLeB_antisymm a b h1 h2

lemma lexLe_total (a b : Str) : lexLe a b ∨ lexLe b a := lexLeB_total a b

lemma lexLt_of_lexLe_of_ne {a b : Str} (h : lexLe a b) (hne : a ≠ b) : lexLt a b := ⟨h, hne⟩

lemma lexLt_trans {a b c : Str} (h1 : lexLt a b) (h2 : lexLt b c) : lexLt a c := by
  refine ⟨lexLe_trans h1.1 h2.1, fun hac => ?_⟩
  subst hac
  exact h2.2 (lexLe_antisymm h2.1 h1.1)

lemma lexLt_irrefl (a : Str) : ¬ lexLt a a := fun h => h.2 rfl

lemma lexLe_of_lexLt {a b : Str} (h : lexLt a b) : lexLe a b := h.1

lemma lexLt_asymm {a b : Str} (h : lexLt a b) : ¬ lexLt b a := by
  intro h2
  exact h.2 (lexLeB_antisymm a b h.1 h2.1)

instance : IsTotal Str lexLe := ⟨lexLe_total⟩

instance : IsTrans Str lexLe := ⟨fun _ _ _ => lexLe_trans⟩

instance : IsAntisymm Str lexLe := ⟨fun _ _ => lexLe_antisymm⟩

lemma recLe_total : ∀ a b : CRec, recLe a b ∨ recLe b a := by
  intro a b
  rcases lexLe_total a.phone b.phone with h | h
  · by_cases he : a.phone = b.phone
    · rcases le_total a.ts b.ts with ht | ht
      · exact Or.inl (Or.inr ⟨he, ht⟩)
      · exact Or.inr (Or.inr ⟨he.symm, ht⟩)
    · exact Or.inl (Or.inl ⟨h, he⟩)
  · by_cases he : b.phone = a.phone
    · rcases le_total a.ts b.ts with ht | ht
      · exact Or.inl (Or.inr ⟨he.symm, ht⟩)
      · exact Or.inr (Or.inr ⟨he, ht⟩)
    · exact Or.inr (Or.inl ⟨h, he⟩)

lemma recLe_trans : ∀ a b c : CRec, recLe a b → recLe b c → recLe a c := by
  intro a b c hab hbc
  rcases hab with h1 | ⟨he1, ht1⟩
  · rcases hbc with h2 | ⟨he2, ht2⟩
    · exact Or.inl (lexLt_trans h1 h2)
    · exact Or.inl (he2 ▸ h1)
  · rcases hbc with h2 | ⟨he2, ht2⟩
    · exact Or.inl (he1 ▸ h2)
    · exact Or.inr ⟨he1.trans he2, ht1.trans ht2⟩

instance : IsTotal CRec recLe := ⟨recLe_total⟩

instance : IsTrans CRec recLe := ⟨recLe_trans⟩

lemma recLe_phone (a b : CRec) (h : recLe a b) : lexLe a.phone b.phone := by
  rcases h with h | ⟨he, _⟩
  · exact h.1
  · exact he ▸ lexLe_refl a.phone

lemma recLe_ts_of_phone_eq {a b : CRec} (h : recLe a b) (he : a.phone = b.phone) :
    a.ts ≤ b.ts := by
  rcases h with h | ⟨_, ht⟩
  · exact absurd (he ▸ h) (lexLt_irrefl b.phone)
  · exact ht

/-! ### Wash-set diff (C6) -/

lemma sorted_lexLt_of_sorted_nodup {l : List Str} (hs : l.Sorted lexLe) (hn : l.Nodup) :
    l.Sorted lexLt :=
  List.Pairwise.and hs hn

lemma mem_only_in_1 (l1 l2 : List (Option Str)) (x : Str) :
    x ∈ (compare_washes l1 l2).only_in_1 ↔ x ∈ l1.reduceOption ∧ x ∉ l2.reduceOption := by
  simp [compare_washes, (List.perm_insertionSort lexLe _).mem_iff, List.mem_filter,
    List.mem_dedup]

lemma mem_only_in_2 (l1 l2 : List (Option Str)) (x : Str) :
    x ∈ (compare_washes l1 l2).only_in_2 ↔ x ∈ l2.reduceOption ∧ x ∉ l1.reduceOption := by
  simp [compare_washes, (List.perm_insertionSort lexLe _).mem_iff, List.mem_filter,
    List.mem_dedup]

lemma mem_common (l1 l2 : List (Option Str)) (x : Str) :
    x ∈ (compare_washes l1 l2).common ↔ x ∈ l1.reduceOption ∧ x ∈ l2.reduceOption := by
  simp [compare_washes, (List.perm_insertionSort lexLe _).mem_iff, List.mem_filter,
    List.mem_dedup]

lemma sorted_sort_filter (p : Str → Bool) (l : List Str) :
    (List.insertionSort lexLe ((l.dedup).filter p)).Sorted lexLt := by
  apply sorted_lexLt_of_sorted_nodup
  · exact List.sorted_insertionSort lexLe _
  · exact (List.perm_insertionSort lexLe _).symm.nodup ((List.nodup_dedup l).filter p)

/-- C6: `compare_washes` is complete and antisymmetric: the union of
`only_in_1`, `only_in_2` and `common` is exactly the union of the two
deduplicated, null-free wash-key sets, `only_in_1` is disjoint from the
second set (and symmetrically), and all three lists are returned in
strictly ascending code-point lexicographic order. -/
theorem claim_C6_wash_diff (l1 l2 : List (Option Str)) :
    (∀ x : Str,
      (x ∈ (compare_washes l1 l2).only_in_1 ∨ x ∈ (compare_washes l1 l2).only_in_2 ∨
        x ∈ (compare_washes l1 l2).common) ↔
      (x ∈ l1.reduceOption ∨ x ∈ l2.reduceOption))
    ∧ (∀ x ∈ (compare_washes l1 l2).only_in_1, x ∉ l2.reduceOption)
    ∧ (∀ x ∈ (compare_washes l1 l2).only_in_2, x ∉ l1.reduceOption)
    ∧ (compare_washes l1 l2).only_in_1.Sorted lexLt
    ∧ (compare_washes l1 l2).only_in_2.Sorted lexLt
    ∧ (compare_washes l1 l2).common.Sorted lexLt := by
  refine ⟨?_, ?_, ?_, ?_, ?_, ?_⟩
  · intro x
    rw [mem_only_in_1, mem_only_in_2, mem_common]
    by_cases h1 : x ∈ l1.reduceOption <;> by_cases h2 : x ∈ l2.reduceOption <;> simp [h1, h2]
  · intro x hx
    exact ((mem_only_in_1 l1 l2 x).mp hx).2
  · intro x hx
    exact ((mem_only_in_2 l1 l2 x).mp hx).2
  · exact sorted_sort_filter _ _
  · exact sorted_sort_filter _ _
  · exact sorted_sort_filter _ _

/-- Witness for C6 at a concrete input: `"a"` appears only in the first
dataset, lands in `only_in_1`, and indeed is not a key of the second. -/
theorem claim_C6_wash_diff_witness :
    "a".data ∈ (compare_washes [some "b".data, some "a".data, none, some "a".data]
        [some "b".data]).only_in_1
    ∧ "a".data ∉ ([some "b".data] : List (Option Str)).reduceOption :=
  ⟨by decide,
   (claim_C6_wash_diff [some "b".data, some "a".data, none, some "a".data]
      [some "b".data]).2.1 "a".data (by decide)⟩

/-! ### Outlier detection (C5) -/

/-- C5: the outlier detector computes `q1` and `q3` as the linearly
interpolated 25th and 75th percentiles of the totals,
`upper = q3 + 1.5 * (q3 - q1)`, and the outlier list is exactly the
totals strictly greater than `upper`; on `[10,12,11,13,9,100]` this gives
`q1 = 10.25`, `q3 = 12.75`, `upper = 16.5` and outliers `[100]`. -/
theorem claim_C5_detect_outliers :
    detect_outliers [10, 12, 11, 13, 9, 100] = ⟨41/4, 51/4, 33/2, [100]⟩
    ∧ (∀ l : List ℚ, (detect_outliers l).q1 = percentile 25 l
        ∧ (detect_outliers l).q3 = percentile 75 l
        ∧ (detect_outliers l).upper =
          (detect_outliers l).q3 + 1.5 * ((detect_outliers l).q3 - (detect_outliers l).q1))
    ∧ (∀ (l : List ℚ) (x : ℚ),
        x ∈ (detect_outliers l).outliers ↔ x ∈ l ∧ x > (detect_outliers l).upper) := by
  refine ⟨?_, fun l => ⟨rfl, rfl, rfl⟩, fun l x => ?_⟩
  · have hs : List.insertionSort (· ≤ ·) ([10, 12, 11, 13, 9, 100] : List ℚ) =
        [9, 10, 11, 12, 13, 100] := by decide
    have h25 : percentile 25 [10, 12, 11, 13, 9, 100] = 41/4 := by
      unfold percentile
      rw [hs]
      norm_num [List.getD]
    have h75 : percentile 75 [10, 12, 11, 13, 9, 100] = 51/4 := by
      unfold percentile
      rw [hs]
      norm_num [List.getD]
    unfold detect_outliers
    rw [h25, h75]
    norm_num
  · simp [detect_outliers, List.mem_filter]

/-! ### Visit-run structure and money conservation (C9, C4) -/

lemma scanRuns_flatten (w : ℚ) :
    ∀ (rs : List CRec) (prev : CRec) (acc : List CRec),
      (scanRuns w prev acc rs).flatten = acc.reverse ++ rs := by
  intro rs
  induction rs with
  | nil => intro prev acc; simp [scanRuns]
  | cons r rs ih =>
    intro prev acc
    by_cases h : visitBreak w prev r
    · simp [scanRuns, h, ih]
    · simp [scanRuns, h, ih]

lemma visitRuns_flatten (w : ℚ) (l : List CRec) : (visitRuns w l).flatten = l := by
  cases l with
  | nil => rfl
  | cons r rs => simp [visitRuns, scanRuns_flatten]

lemma cleanRecs_cons (r : TxRec) (rs : List TxRec) :
    cleanRecs (r :: rs) =
      match r.phone, r.ts with
      | some p, some t =>
        (⟨p, t, r.money, r.bonus, r.box, r.total⟩ : CRec) :: cleanRecs rs
      | _, _ => cleanRecs rs := by
  cases hp : r.phone <;> cases ht : r.ts <;>
    simp [cleanRecs, List.filterMap_cons, hp, ht]

lemma cleanRecs_map_total (l : List TxRec) :
    ((cleanRecs l).map (·.total)).sum =
      ((l.filter (fun r => r.ts.isSome && r.phone.isSome)).map (·.total)).sum := by
  induction l with
  | nil => rfl
  | cons r rs ih =>
    rw [cleanRecs_cons, List.filter_cons]
    cases hp : r.phone <;> cases ht : r.ts <;> simp [hp, ht, ih]

/-- C9: the sum of `visit_total` over all visits equals the sum of the
`total` field over exactly the input records having both a timestamp and
a phone; records dropped by `dropna` contribute to no visit. -/
theorem claim_C9_visit_total_conservation (w : ℚ) (l : List TxRec) :
    ((group_transactions_to_visits w l).map (·.visit_total)).sum =
      ((l.filter (fun r => r.ts.isSome && r.phone.isSome)).map (·.total)).sum := by
  unfold group_transactions_to_visits
  rw [List.map_map]
  have h1 : ((·.visit_total) ∘ aggRun) = fun run : List CRec => (run.map (·.total)).sum := rfl
  rw [h1]
  have h2 : (fun run : List CRec => (run.map (·.total)).sum) =
      List.sum ∘ List.map (·.total) := rfl
  rw [h2, ← List.map_map, ← List.sum_flatten, ← List.map_flatten, visitRuns_flatten]
  have h3 : ((sortRecs l).map (·.total)).sum = ((cleanRecs l).map (·.total)).sum :=
    ((List.perm_insertionSort recLe (cleanRecs l)).map (·.total)).sum_eq
  rw [h3, cleanRecs_map_total]

lemma sum_filter_split (f : α → ℚ) (p : α → Bool) (l : List α) :
    ((l.filter p).map f).sum + ((l.filter (fun a => !(p a))).map f).sum = (l.map f).sum := by
  induction l with
  | nil => simp
  | cons a l ih =>
    by_cases h : p a = true
    · simp [List.filter_cons, h, ← ih]
      ring
    · have h' : p a = false := by simp_all
      simp [List.filter_cons, h', ← ih]
      ring

lemma sum_over_keys {β : Type} [DecidableEq β] (f : α → ℚ) (key : α → β) :
    ∀ (ks : List β) (xs : List α), ks.Nodup → (∀ x ∈ xs, key x ∈ ks) →
      (ks.map (fun k => ((xs.filter (fun x => decide (key x = k))).map f).sum)).sum =
        (xs.map f).sum := by
  intro ks
  induction ks with
  | nil =>
    intro xs _ hcov
    cases xs with
    | nil => simp
    | cons x xs => exact absurd (hcov x (by simp)) (by simp)
  | cons k ks ih =>
    intro xs hnd hcov
    have hfix : ∀ k' ∈ ks,
        xs.filter (fun x => decide (key x = k')) =
          (xs.filter (fun x => !(decide (key x = k)))).filter
            (fun x => decide (key x = k')) := by
      intro k' hk'
      rw [List.filter_filter]
      apply List.filter_congr
      intro x _
      by_cases h : key x = k'
      · have hkk : k' ≠ k := fun hc => (List.nodup_cons.mp hnd).1 (hc ▸ hk')
        have hne : key x ≠ k := fun hc => hkk (h.symm.trans hc)
        simp [h, hne, hkk]
      · simp [h]
    have hmapeq : ks.map (fun k' => ((xs.filter (fun x => decide (key x = k'))).map f).sum) =
        ks.map (fun k' => (((xs.filter (fun x => !(decide (key x = k)))).filter
          (fun x => decide (key x = k'))).map f).sum) := by
      apply List.map_congr_left
      intro k' hk'
      rw [hfix k' hk']
    have hcov2 : ∀ x ∈ xs.filter (fun x => !(decide (key x = k))), key x ∈ ks := by
      intro x hx
      rcases List.mem_filter.mp hx with ⟨hx1, hx2⟩
      rcases List.mem_cons.mp (hcov x hx1) with h | h
      · simp [h] at hx2
      · exact h
    have hih := ih (xs.filter (fun x => !(decide (key x = k)))) (List.nodup_cons.mp hnd).2 hcov2
    rw [List.map_cons, List.sum_cons, hmapeq, hih, sum_filter_split]

/-- C4: money conservation for the LTV table: the sum of the per-identity
LTV values returned by `calculate_ltv` equals the sum of all visit totals
produced by the visit aggregator (window 30) over the whole dataset. -/
theorem claim_C4_ltv_conservation (l : List TxRec) :
    ((calculate_ltv l).map (·.ltv)).sum =
      ((group_transactions_to_visits 30 l).map (·.visit_total)).sum := by
  unfold calculate_ltv
  set vs := group_transactions_to_visits 30 l with hvs
  set phones := List.insertionSort lexLe ((vs.map (·.phone)).dedup) with hphones
  set rows := phones.map (fun p =>
    ({ phone := p
       ltv := ((vs.filter (fun v => decide (v.phone = p))).map (·.visit_total)).sum
       visits := (vs.filter (fun v => decide (v.phone = p))).length
       transactions := (l.filter (fun r => decide (r.phone = some p))).length } : LtvRow))
    with hrows
  have hperm : ((List.insertionSort (fun a b : LtvRow => b.ltv ≤ a.ltv) rows).map (·.ltv)).sum =
      (rows.map (·.ltv)).sum :=
    ((List.perm_insertionSort (fun a b : LtvRow => b.ltv ≤ a.ltv) rows).map (·.ltv)).sum_eq
  rw [hperm, hrows, List.map_map]
  have h1 : ((·.ltv) ∘ fun p =>
      ({ phone := p
         ltv := ((vs.filter (fun v => decide (v.phone = p))).map (·.visit_total)).sum
         visits := (vs.filter (fun v => decide (v.phone = p))).length
         transactions := (l.filter (fun r => decide (r.phone = some p))).length } : LtvRow)) =
      fun p => ((vs.filter (fun v => decide (v.phone = p))).map (·.visit_total)).sum := rfl
  rw [h1]
  apply sum_over_keys (fun v : Visit => v.visit_total) (fun v : Visit => v.phone) phones vs
  · exact (List.perm_insertionSort lexLe _).symm.nodup (List.nodup_dedup _)
  · intro v hv
    rw [hphones, (List.perm_insertionSort lexLe _).mem_iff, List.mem_dedup]
    exact List.mem_map_of_mem (·.phone) hv

/-! ### Visit grouping invariants (C1) -/

lemma recLe_refl (a : CRec) : recLe a a := Or.inr ⟨rfl, le_refl _⟩

lemma scanRuns_ne_nil (w : ℚ) :
    ∀ (rs : List CRec) (prev : CRec) (acc : List CRec), acc ≠ [] →
      ∀ v ∈ scanRuns w prev acc rs, v ≠ [] := by
  intro rs
  induction rs with
  | nil =>
    intro prev acc hacc v hv
    simp only [scanRuns, List.mem_singleton] at hv
    subst hv
    simpa using hacc
  | cons r rs ih =>
    intro prev acc hacc v hv
    by_cases h : visitBreak w prev r
    · simp only [scanRuns, if_pos h, List.mem_cons] at hv
      rcases hv with hv | hv
      · subst hv; simpa using hacc
      · exact ih r [r] (by simp) v hv
    · simp only [scanRuns, if_neg h] at hv
      exact ih r (r :: acc) (by simp) v hv

lemma scanRuns_chain_in (w : ℚ) :
    ∀ (rs : List CRec) (prev : CRec) (acc : List CRec),
      acc.head? = some prev →
      List.Chain' (fun x y => ¬ visitBreak w x y) acc.reverse →
      ∀ v ∈ scanRuns w prev acc rs, List.Chain' (fun x y => ¬ visitBreak w x y) v := by
  intro rs
  induction rs with
  | nil =>
    intro prev acc _ hch v hv
    simp only [scanRuns, List.mem_singleton] at hv
    subst hv
    exact hch
  | cons r rs ih =>
    intro prev acc hhd hch v hv
    by_cases h : visitBreak w prev r
    · simp only [scanRuns, if_pos h, List.mem_cons] at hv
      rcases hv with hv | hv
      · subst hv; exact hch
      · exact ih r [r] rfl (by simp) v hv
    · simp only [scanRuns, if_neg h] at hv
      refine ih r (r :: acc) rfl ?_ v hv
      rw [List.reverse_cons, List.chain'_append]
      refine ⟨hch, by simp, ?_⟩
      intro x hx y hy
      rw [List.getLast?_reverse, hhd, Option.mem_some_iff] at hx
      simp only [List.head?_cons, Option.mem_some_iff] at hy
      subst hx
      subst hy
      exact h

lemma scanRuns_head (w : ℚ) :
    ∀ (rs : List CRec) (prev : CRec) (acc : List CRec), acc ≠ [] →
      ∃ v rest, scanRuns w prev acc rs = v :: rest ∧ v.head? = acc.reverse.head? := by
  intro rs
  induction rs with
  | nil =>
    intro prev acc _
    exact ⟨acc.reverse, [], rfl, rfl⟩
  | cons r rs ih =>
    intro prev acc hacc
    by_cases h : visitBreak w prev r
    · exact ⟨acc.reverse, scanRuns w r [r] rs, by simp [scanRuns, if_pos h], rfl⟩
    · rcases ih r (r :: acc) (by simp) with ⟨v, rest, heq, hhd⟩
      refine ⟨v, rest, by simp [scanRuns, if_neg h, heq], ?_⟩
      rw [hhd, List.reverse_cons, List.head?_append]
      cases hrev : acc.reverse with
      | nil => exact absurd (by simpa using hrev) hacc
      | cons z zs => simp

lemma scanRuns_chain_bk (w : ℚ) :
    ∀ (rs : List CRec) (prev : CRec) (acc : List CRec),
      acc.head? = some prev →
      List.Chain' (fun u v => ∀ x ∈ u.getLast?, ∀ y ∈ v.head?, visitBreak w x y)
        (scanRuns w prev acc rs) := by
  intro rs
  induction rs with
  | nil =>
    intro prev acc _
    simp [scanRuns]
  | cons r rs ih =>
    intro prev acc hhd
    by_cases h : visitBreak w prev r
    · rw [scanRuns, if_pos h]
      rcases scanRuns_head w rs r [r] (by simp) with ⟨v, rest, heq, hvh⟩
      rw [heq, List.chain'_cons']
      refine ⟨?_, heq ▸ ih r [r] rfl⟩
      intro u hu x hx y hy
      simp only [List.head?_cons, Option.mem_some_iff] at hu
      subst hu
      rw [List.getLast?_reverse, hhd, Option.mem_some_iff] at hx
      subst hx
      rw [hvh] at hy
      simp only [List.reverse_cons, List.reverse_nil, List.nil_append, List.head?_cons,
        Option.mem_some_iff] at hy
      subst hy
      exact h
    · rw [scanRuns, if_neg h]
      exact ih r (r :: acc) rfl

lemma visitRuns_ne_nil (w : ℚ) (l : List CRec) : ∀ v ∈ visitRuns w l, v ≠ [] := by
  cases l with
  | nil => simp [visitRuns]
  | cons r rs => exact scanRuns_ne_nil w rs r [r] (by simp)

lemma visitRuns_chain_in (w : ℚ) (l : List CRec) :
    ∀ v ∈ visitRuns w l, List.Chain' (fun x y => ¬ visitBreak w x y) v := by
  cases l with
  | nil => simp [visitRuns]
  | cons r rs => exact scanRuns_chain_in w rs r [r] rfl (by simp)

lemma visitRuns_chain_bk (w : ℚ) (l : List CRec) :
    List.Chain' (fun u v => ∀ x ∈ u.getLast?, ∀ y ∈ v.head?, visitBreak w x y)
      (visitRuns w l) := by
  cases l with
  | nil => simp [visitRuns]
  | cons r rs => exact scanRuns_chain_bk w rs r [r] rfl

lemma run_same_strip (w : ℚ) (l : List CRec) :
    ∀ v ∈ visitRuns w l, ∀ a ∈ v, ∀ b ∈ v, pyStrip a.phone = pyStrip b.phone := by
  intro v hv a ha b hb
  have hch := visitRuns_chain_in w l v hv
  have hs : List.Chain' (fun x y : CRec => pyStrip x.phone = pyStrip y.phone) v := by
    refine hch.imp ?_
    intro x y hxy
    rw [visitBreak] at hxy
    push_neg at hxy
    exact hxy.1.symm
  haveI : IsTrans CRec (fun x y : CRec => pyStrip x.phone = pyStrip y.phone) :=
    ⟨fun _ _ _ h1 h2 => h1.trans h2⟩
  rw [List.chain'_iff_pairwise] at hs
  by_cases hab : a = b
  · rw [hab]
  · exact hs.forall (fun _ _ h => h.symm) ha hb hab

lemma sorted_le_getLast :
    ∀ (v : List CRec), v.Sorted recLe → ∀ a ∈ v, ∀ x ∈ v.getLast?, recLe a x := by
  intro v
  induction v with
  | nil => intro _ a ha; exact absurd ha (by simp)
  | cons c cs ih =>
    intro hs a ha x hx
    cases cs with
    | nil =>
      simp only [List.getLast?_singleton, Option.mem_some_iff] at hx
      simp only [List.mem_singleton] at ha
      subst hx
      subst ha
      exact recLe_refl a
    | cons d ds =>
      rw [List.getLast?_cons_cons] at hx
      have hxmem : x ∈ d :: ds := by
        have h1 : (d :: ds).getLast? = some ((d :: ds).getLast (by simp)) :=
          List.getLast?_eq_getLast _ _
        rw [h1, Option.mem_some_iff] at hx
        subst hx
        exact List.getLast_mem _
      rcases List.mem_cons.mp ha with h | h
      · subst h
        exact (List.sorted_cons.mp hs).1 x hxmem
      · exact ih (List.sorted_cons.mp hs).2 a h x hx

lemma sorted_head_le (v : List CRec) (hs : v.Sorted recLe) :
    ∀ x ∈ v.head?, ∀ a ∈ v, recLe x a := by
  intro x hx a ha
  cases v with
  | nil => exact absurd ha (by simp)
  | cons c cs =>
    simp only [List.head?_cons, Option.mem_some_iff] at hx
    subst hx
    rcases List.mem_cons.mp ha with h | h
    · subst h; exact recLe_refl _
    · exact (List.sorted_cons.mp hs).1 a h

lemma mem_cleanRecs_phone {l : List TxRec} {a : CRec} (ha : a ∈ cleanRecs l) :
    ∃ r ∈ l, r.phone = some a.phone := by
  rcases List.mem_filterMap.mp ha with ⟨r, hr, heq⟩
  refine ⟨r, hr, ?_⟩
  cases hp : r.phone with
  | none => rw [hp] at heq; simp at heq
  | some p =>
    cases ht : r.ts with
    | none => rw [hp, ht] at heq; simp at heq
    | some t =>
      rw [hp, ht] at heq
      simp only [Option.some_inj] at heq
      subst heq
      simpa using hp

/-- Two records of the same phone whose gap is at most the window always
land in the same visit run, provided every phone in the flattened run
list equals its own strip and the run decomposition came from a sorted
list with breaks exactly at the boundaries. -/
lemma no_split_aux (w : ℚ) :
    ∀ runs : List (List CRec),
      runs.flatten.Sorted recLe →
      List.Chain' (fun u v => ∀ x ∈ u.getLast?, ∀ y ∈ v.head?, visitBreak w x y) runs →
      (∀ v ∈ runs, v ≠ []) →
      (∀ x ∈ runs.flatten, pyStrip x.phone = x.phone) →
      ∀ a b : CRec, a ∈ runs.flatten → b ∈ runs.flatten →
        a.phone = b.phone → a.ts ≤ b.ts → ((b.ts : ℚ) - (a.ts : ℚ)) / 60 ≤ w →
        ∃ v ∈ runs, a ∈ v ∧ b ∈ v := by
  intro runs
  induction runs with
  | nil =>
    intro _ _ _ _ a b ha
    exact absurd ha (by simp)
  | cons v rest ih =>
    intro hsort hbk hne hst a b ha hb hph hts hgap
    have hflat : (v :: rest).flatten = v ++ rest.flatten := by simp
    rw [hflat] at hsort hst ha hb
    have hsv : v.Sorted recLe := (List.pairwise_append.mp hsort).1
    have hsrest : rest.flatten.Sorted recLe := (List.pairwise_append.mp hsort).2.1
    have hcross : ∀ p ∈ v, ∀ q ∈ rest.flatten, recLe p q :=
      (List.pairwise_append.mp hsort).2.2
    rcases List.mem_append.mp ha with hav | har
    · rcases List.mem_append.mp hb with hbv | hbr
      · exact ⟨v, List.mem_cons_self v rest, hav, hbv⟩
      · -- a is in the first run, b further right: contradiction with the boundary break
        exfalso
        cases rest with
        | nil => simp at hbr
        | cons u rest2 =>
          have huv : ∀ x ∈ v.getLast?, ∀ y ∈ u.head?, visitBreak w x y :=
            (List.chain'_cons'.mp hbk).1 u (by simp)
          have hvne : v ≠ [] := hne v (by simp)
          have hune : u ≠ [] := hne u (by simp)
          obtain ⟨x, hx⟩ : ∃ x, v.getLast? = some x := by
            cases hv2 : v with
            | nil => exact absurd hv2 hvne
            | cons c cs => exact ⟨_, List.getLast?_eq_getLast _ (by simp)⟩
          obtain ⟨y, hy⟩ : ∃ y, u.head? = some y := by
            cases hu2 : u with
            | nil => exact absurd hu2 hune
            | cons c cs => exact ⟨c, rfl⟩
          have hbreak : visitBreak w x y := huv x (by rw [hx]; rfl) y (by rw [hy]; rfl)
          have hxv : x ∈ v := by
            rw [List.getLast?_eq_getLast _ hvne, Option.some_inj] at hx
            rw [← hx]
            exact List.getLast_mem _
          have hyu : y ∈ u := by
            cases hu2 : u with
            | nil => exact absurd hu2 hune
            | cons c cs =>
              subst hu2
              simp only [List.head?_cons, Option.some_inj] at hy
              subst hy
              exact List.mem_cons_self _ _
          have hyflat : y ∈ (u :: rest2).flatten := by
            simp only [List.flatten_cons]
            exact List.mem_append.mpr (Or.inl hyu)
          -- order: a ≤ x ≤ y ≤ b
          have hax : recLe a x := sorted_le_getLast v hsv a hav x hx
          have hxy : recLe x y := hcross x hxv y hyflat
          have hyb : recLe y b := by
            refine sorted_head_le ((u :: rest2).flatten) hsrest y ?_ b hbr
            rw [List.flatten_cons, List.head?_append, hy]
            rfl
          -- all four phones are equal
          have hpax : lexLe a.phone x.phone := recLe_phone a x hax
          have hpxy : lexLe x.phone y.phone := recLe_phone x y hxy
          have hpyb : lexLe y.phone b.phone := recLe_phone y b hyb
          have hpx : x.phone = a.phone :=
            lexLe_antisymm (lexLe_trans hpxy (hph ▸ hpyb)) hpax
          have hpy : y.phone = a.phone :=
            lexLe_antisymm (hph ▸ hpyb) (lexLe_trans hpax hpxy)
          -- hence the break is a time break
          have hstr : pyStrip y.phone = pyStrip x.phone := by
            rw [hst x (List.mem_append.mpr (Or.inl hxv)),
              hst y (List.mem_append.mpr (Or.inr hyflat)), hpx, hpy]
          have hgapxy : ((y.ts : ℚ) - (x.ts : ℚ)) / 60 > w := by
            rcases hbreak with hb1 | hb2
            · exact absurd hstr hb1
            · exact hb2
          -- and the timestamps are nested inside [a.ts, b.ts]
          have htax : a.ts ≤ x.ts := recLe_ts_of_phone_eq hax hpx.symm
          have htxy : x.ts ≤ y.ts := recLe_ts_of_phone_eq hxy (hpx.trans hpy.symm)
          have htyb : y.ts ≤ b.ts := recLe_ts_of_phone_eq hyb (hpy.trans hph)
          have hc1 : ((y.ts : ℚ) - (x.ts : ℚ)) ≤ ((b.ts : ℚ) - (a.ts : ℚ)) := by
            have c1 : (a.ts : ℚ) ≤ (x.ts : ℚ) := by exact_mod_cast htax
            have c2 : (y.ts : ℚ) ≤ (b.ts : ℚ) := by exact_mod_cast htyb
            linarith
          linarith
    · rcases List.mem_append.mp hb with hbv | hbr
      · -- b is in the first run, a further right: forces equal timestamps,
        -- then the boundary break forces a negative window, contradiction
        exfalso
        have hba : recLe b a := hcross b hbv a har
        have htba : b.ts ≤ a.ts := recLe_ts_of_phone_eq hba hph.symm
        have htseq : a.ts = b.ts := le_antisymm hts htba
        cases rest with
        | nil => simp at har
        | cons u rest2 =>
          have huv : ∀ x ∈ v.getLast?, ∀ y ∈ u.head?, visitBreak w x y :=
            (List.chain'_cons'.mp hbk).1 u (by simp)
          have hvne : v ≠ [] := hne v (by simp)
          have hune : u ≠ [] := hne u (by simp)
          obtain ⟨x, hx⟩ : ∃ x, v.getLast? = some x := by
            cases hv2 : v with
            | nil => exact absurd hv2 hvne
            | cons c cs => exact ⟨_, List.getLast?_eq_getLast _ (by simp)⟩
          obtain ⟨y, hy⟩ : ∃ y, u.head? = some y := by
            cases hu2 : u with
            | nil => exact absurd hu2 hune
            | cons c cs => exact ⟨c, rfl⟩
          have hbreak : visitBreak w x y := huv x (by rw [hx]; rfl) y (by rw [hy]; rfl)
          have hxv : x ∈ v := by
            rw [List.getLast?_eq_getLast _ hvne, Option.some_inj] at hx
            rw [← hx]
            exact List.getLast_mem _
          have hyu : y ∈ u := by
            cases hu2 : u with
            | nil => exact absurd hu2 hune
            | cons c cs =>
              subst hu2
              simp only [List.head?_cons, Option.some_inj] at hy
              subst hy
              exact List.mem_cons_self _ _
          have hyflat : y ∈ (u :: rest2).flatten := by
            simp only [List.flatten_cons]
            exact List.mem_append.mpr (Or.inl hyu)
          have hbx : recLe b x := sorted_le_getLast v hsv b hbv x hx
          have hxy : recLe x y := hcross x hxv y hyflat
          have hya : recLe y a := by
            refine sorted_head_le ((u :: rest2).flatten) hsrest y ?_ a har
            rw [List.flatten_cons, List.head?_append, hy]
            rfl
          have hpbx : lexLe b.phone x.phone := recLe_phone b x hbx
          have hpxy : lexLe x.phone y.phone := recLe_phone x y hxy
          have hpya : lexLe y.phone a.phone := recLe_phone y a hya
          have hpx : x.phone = b.phone :=
            lexLe_antisymm (lexLe_trans hpxy (hph.symm ▸ hpya)) hpbx
          have hpy : y.phone = b.phone :=
            lexLe_antisymm (hph.symm ▸ hpya) (lexLe_trans hpbx hpxy)
          have hstr : pyStrip y.phone = pyStrip x.phone := by
            rw [hst x (List.mem_append.mpr (Or.inl hxv)),
              hst y (List.mem_append.mpr (Or.inr hyflat)), hpx, hpy]
          have hgapxy : ((y.ts : ℚ) - (x.ts : ℚ)) / 60 > w := by
            rcases hbreak with hb1 | hb2
            · exact absurd hstr hb1
            · exact hb2
          have htbx : b.ts ≤ x.ts := recLe_ts_of_phone_eq hbx hpx.symm
          have htxy : x.ts ≤ y.ts := recLe_ts_of_phone_eq hxy (hpx.trans hpy.symm)
          have htya : y.ts ≤ a.ts := recLe_ts_of_phone_eq hya (hpy.trans hph.symm)
          -- all timestamps squeezed to equality, so the gap is zero
          have hxyeq : x.ts = y.ts := by omega
          have hzero : ((y.ts : ℚ) - (x.ts : ℚ)) = 0 := by
            rw [hxyeq]
            ring
          rw [hzero] at hgapxy
          -- 0 / 60 > w, while (b.ts - a.ts)/60 = 0 ≤ w
          have hzero2 : ((b.ts : ℚ) - (a.ts : ℚ)) = 0 := by
            rw [htseq]
            ring
          rw [hzero2] at hgap
          norm_num at hgapxy
          linarith
      · rcases ih hsrest (List.chain'_cons'.mp hbk).2
            (fun u hu => hne u (List.mem_cons_of_mem v hu))
            (fun x hx => hst x (List.mem_append.mpr (Or.inr hx)))
            a b har hbr hph hts hgap with ⟨u, hu, hau, hbu⟩
        exact ⟨u, List.mem_cons_of_mem v hu, hau, hbu⟩

/-- C1 (amended): provided every phone field equals its own
whitespace-strip (the sort key and the scan's stripped comparison then
agree), the visit grouping never splits two same-phone records whose gap
is under the window into different visits, never puts records of
different phones into one visit, covers the sorted cleaned records
exactly, and starts a new visit exactly at a phone change or a gap
strictly exceeding the window (no break inside a run, a break at every
run boundary). -/
theorem claim_C1_visit_grouping (w : ℚ) (l : List TxRec)
    (hws : ∀ r ∈ l, r.phone.map pyStrip = r.phone) :
    (∀ a b : CRec, a ∈ cleanRecs l → b ∈ cleanRecs l → a.phone = b.phone →
        |(b.ts : ℚ) - (a.ts : ℚ)| / 60 < w →
        ∃ v ∈ visitRuns w (sortRecs l), a ∈ v ∧ b ∈ v)
    ∧ (∀ v ∈ visitRuns w (sortRecs l), ∀ a ∈ v, ∀ b ∈ v, a.phone = b.phone)
    ∧ (visitRuns w (sortRecs l)).flatten = sortRecs l
    ∧ (∀ v ∈ visitRuns w (sortRecs l), v ≠ [] ∧
        v.Chain' (fun x y => ¬ visitBreak w x y))
    ∧ (visitRuns w (sortRecs l)).Chain'
        (fun u v => ∀ x ∈ u.getLast?, ∀ y ∈ v.head?, visitBreak w x y) := by
  have hsorted : (sortRecs l).Sorted recLe := List.sorted_insertionSort recLe (cleanRecs l)
  have hmemiff : ∀ x : CRec, x ∈ sortRecs l ↔ x ∈ cleanRecs l :=
    fun x => (List.perm_insertionSort recLe (cleanRecs l)).mem_iff
  have hst : ∀ x ∈ sortRecs l, pyStrip x.phone = x.phone := by
    intro x hx
    rcases mem_cleanRecs_phone ((hmemiff x).mp hx) with ⟨r, hr, hphone⟩
    have h2 := hws r hr
    rw [hphone, Option.map_some'] at h2
    exact Option.some_inj.mp h2
  have hflat := visitRuns_flatten w (sortRecs l)
  have hsorted' : (visitRuns w (sortRecs l)).flatten.Sorted recLe := by
    rw [hflat]
    exact hsorted
  have hst' : ∀ x ∈ (visitRuns w (sortRecs l)).flatten, pyStrip x.phone = x.phone := by
    intro x hx
    exact hst x (by rw [← hflat]; exact hx)
  refine ⟨?_, ?_, hflat,
    fun v hv => ⟨visitRuns_ne_nil w _ v hv, visitRuns_chain_in w _ v hv⟩,
    visitRuns_chain_bk w _⟩
  · intro a b ha hb hph hgap
    have ha' : a ∈ (visitRuns w (sortRecs l)).flatten := by
      rw [hflat]
      exact (hmemiff a).mpr ha
    have hb' : b ∈ (visitRuns w (sortRecs l)).flatten := by
      rw [hflat]
      exact (hmemiff b).mpr hb
    rcases le_total a.ts b.ts with hts | hts
    · have hcast : (a.ts : ℚ) ≤ (b.ts : ℚ) := by exact_mod_cast hts
      have habs : |(b.ts : ℚ) - (a.ts : ℚ)| = (b.ts : ℚ) - (a.ts : ℚ) :=
        abs_of_nonneg (by linarith)
      rw [habs] at hgap
      exact no_split_aux w _ hsorted' (visitRuns_chain_bk w _) (visitRuns_ne_nil w _) hst'
        a b ha' hb' hph hts (le_of_lt hgap)
    · have hcast : (b.ts : ℚ) ≤ (a.ts : ℚ) := by exact_mod_cast hts
      have habs : |(b.ts : ℚ) - (a.ts : ℚ)| = (a.ts : ℚ) - (b.ts : ℚ) := by
        rw [abs_of_nonpos (by linarith)]
        ring
      rw [habs] at hgap
      rcases no_split_aux w _ hsorted' (visitRuns_chain_bk w _) (visitRuns_ne_nil w _) hst'
        b a hb' ha' hph.symm hts (le_of_lt hgap) with ⟨v, hv, hbv, hav⟩
      exact ⟨v, hv, hav, hbv⟩
  · intro v hv a ha b hb
    have hstrip := run_same_strip w (sortRecs l) v hv a ha b hb
    have hax : a ∈ (visitRuns w (sortRecs l)).flatten := List.mem_flatten.mpr ⟨v, hv, ha⟩
    have hbx : b ∈ (visitRuns w (sortRecs l)).flatten := List.mem_flatten.mpr ⟨v, hv, hb⟩
    rw [← hst' a hax, ← hst' b hbx, hstrip]

/-- C1 counterexample for the claim over arbitrary inputs: the scan sorts
by the raw phone but compares stripped phones, so `"a"` and `"a "`
(different identities, same strip) land in one visit, while `" b"` and
`"b"` (same stripped identity, zero gap) land in different visits. -/
theorem claim_C1_counterexample :
    (visitRuns 30 (sortRecs
        [⟨some "a".data, some 0, 0, 0, 0, 0⟩, ⟨some "a ".data, some 0, 0, 0, 0, 0⟩]) =
      [[⟨"a".data, 0, 0, 0, 0, 0⟩, ⟨"a ".data, 0, 0, 0, 0, 0⟩]]
      ∧ ("a".data : Str) ≠ "a ".data)
    ∧ (visitRuns 30 (sortRecs
        [⟨some " b".data, some 0, 0, 0, 0, 0⟩, ⟨some "a".data, some 0, 0, 0, 0, 0⟩,
         ⟨some "b".data, some 0, 0, 0, 0, 0⟩]) =
      [[⟨" b".data, 0, 0, 0, 0, 0⟩], [⟨"a".data, 0, 0, 0, 0, 0⟩], [⟨"b".data, 0, 0, 0, 0, 0⟩]]
      ∧ pyStrip " b".data = pyStrip "b".data) :=
  ⟨⟨by decide, by decide⟩, ⟨by decide, by decide⟩⟩

/-- Witness for C1 at a concrete strip-invariant input. -/
theorem claim_C1_visit_grouping_witness :
    (∀ r ∈ ([⟨some "79".data, some 0, 0, 0, 0, 0⟩,
        ⟨some "79".data, some 60, 0, 0, 0, 0⟩] : List TxRec), r.phone.map pyStrip = r.phone)
    ∧ (∀ v ∈ visitRuns 30 (sortRecs
        ([⟨some "79".data, some 0, 0, 0, 0, 0⟩,
          ⟨some "79".data, some 60, 0, 0, 0, 0⟩] : List TxRec)),
        ∀ a ∈ v, ∀ b ∈ v, a.phone = b.phone) :=
  ⟨by decide,
   (claim_C1_visit_grouping 30
      [⟨some "79".data, some 0, 0, 0, 0, 0⟩, ⟨some "79".data, some 60, 0, 0, 0, 0⟩]
      (by decide)).2.1⟩

/-! ### The identity classifier (C2, C7, C10) and numeric cells (C3) -/

/-- C2 (amended): on any input that passes the empty/`nan`/`none` guard
and whose comma-normalized form parses as a finite float, `normalize_phone`
is exactly `str(int(float(...)))`: the double is truncated to an integer
and rendered back in decimal.  The scientific-notation repair is lossy at
the shown precision: `"1.33133E+11"` normalizes to `"133133000000"`
(not the aggregator constant), while the full-precision
`"1.33133133133E+11"` does recover `"133133133133"`. -/
theorem claim_C2_normalize_phone (s : String) (ng : Bool) (n : ℕ) (e : ℤ)
    (h1 : ¬ (pyLower (pyStrip s.data) = "nan".data ∨
        pyLower (pyStrip s.data) = "none".data ∨ pyStrip s.data = []))
    (h2 : pyFloat ((pyStrip s.data).map (fun ch => if ch = ',' then '.' else ch)) =
        some (PyVal.finite ng n e)) :
    (∃ z : ℤ, truncFloat (PyVal.finite ng n e) = some z ∧ normalize_phone s = ⟨intDec z⟩)
    ∧ normalize_phone "1.33133E+11" = "133133000000"
    ∧ normalize_phone "1.33133133133E+11" = "133133133133" := by
  refine ⟨⟨_, rfl, ?_⟩, by decide, by decide⟩
  unfold normalize_phone normPhoneL
  rw [if_neg h1]
  simp only [h2, truncFloat]

/-- C2 counterexample: the code maps `"1.33133E+11"` to `"133133000000"`,
not to `"133133133133"` as the claim states. -/
theorem claim_C2_counterexample :
    normalize_phone "1.33133E+11" = "133133000000" ∧
    ("133133000000" : String) ≠ "133133133133" :=
  ⟨by decide, by decide⟩

/-- Witness for C2 at `"1.33133E+11"`: the guard passes, the parse yields
the finite double `8725004288000000 * 2 ^ (-16) = 133133000000`, and the
theorem gives the concrete output. -/
theorem claim_C2_normalize_phone_witness :
    (¬ (pyLower (pyStrip "1.33133E+11".data) = "nan".data ∨
        pyLower (pyStrip "1.33133E+11".data) = "none".data ∨
        pyStrip "1.33133E+11".data = []))
    ∧ pyFloat ((pyStrip "1.33133E+11".data).map (fun ch => if ch = ',' then '.' else ch)) =
        some (PyVal.finite false 8725004288000000 (-16))
    ∧ normalize_phone "1.33133E+11" = "133133000000" :=
  ⟨by decide, by decide,
   (claim_C2_normalize_phone "1.33133E+11" false 8725004288000000 (-16)
      (by decide) (by decide)).2.1⟩

/-- C7 counterexample: `normalize_phone` is not idempotent: the fallback
branch keeps leading zeros (`"a007"` maps to `"007"`), which the numeric
branch then strips on a second application (`"007"` maps to `"7"`). -/
theorem claim_C7_counterexample :
    normalize_phone (normalize_phone "a007") = "7"
    ∧ normalize_phone "a007" = "007"
    ∧ ("7" : String) ≠ "007" :=
  ⟨by decide, by decide, by decide⟩

/-- C10: `normalize_phone` is not the identity on digit-only strings: the
18-digit string `"123456789012345678"` encodes an integer above `2 ^ 53`,
and the round trip through a binary64 double rounds it to
`"123456789012345680"`. -/
theorem claim_C10_not_identity_on_digits :
    (∀ c ∈ ("123456789012345678" : String).data, c.isDigit)
    ∧ natOfDigits "123456789012345678".data = 123456789012345678
    ∧ 2 ^ 53 < 123456789012345678
    ∧ normalize_phone "123456789012345678" = "123456789012345680"
    ∧ ("123456789012345680" : String) ≠ "123456789012345678" :=
  ⟨by decide, by decide, by decide, by decide, by decide⟩

lemma cleanNumCell_eq (l : Str) :
    cleanNumCell l =
      (l.filter (fun c => ¬(c = ' ' ∨ c = '\u00A0'))).map
        (fun c => if c = ',' then '.' else c) := by
  induction l with
  | nil => rfl
  | cons c cs ih =>
    by_cases h1 : c = '\u00A0'
    · subst h1
      rw [show cleanNumCell ('\u00A0' :: cs) = cleanNumCell cs from by
        simp [cleanNumCell, List.filter_cons]]
      rw [show (('\u00A0' :: cs).filter (fun c => ¬(c = ' ' ∨ c = '\u00A0'))).map
            (fun c => if c = ',' then '.' else c) =
          (cs.filter (fun c => ¬(c = ' ' ∨ c = '\u00A0'))).map
            (fun c => if c = ',' then '.' else c) from by
        simp [List.filter_cons]]
      exact ih
    · by_cases h2 : c = ' '
      · subst h2
        rw [show cleanNumCell (' ' :: cs) = cleanNumCell cs from by
          simp [cleanNumCell, List.filter_cons]]
        rw [show ((' ' :: cs).filter (fun c => ¬(c = ' ' ∨ c = '\u00A0'))).map
              (fun c => if c = ',' then '.' else c) =
            (cs.filter (fun c => ¬(c = ' ' ∨ c = '\u00A0'))).map
              (fun c => if c = ',' then '.' else c) from by
          simp [List.filter_cons]]
        exact ih
      · rw [show cleanNumCell (c :: cs) =
            (if c = ',' then '.' else c) :: cleanNumCell cs from by
          simp [cleanNumCell, List.filter_cons, h1, h2]]
        rw [show ((c :: cs).filter (fun c => ¬(c = ' ' ∨ c = '\u00A0'))).map
              (fun c => if c = ',' then '.' else c) =
            (if c = ',' then '.' else c) ::
              (cs.filter (fun c => ¬(c = ' ' ∨ c = '\u00A0'))).map
                (fun c => if c = ',' then '.' else c) from by
          simp [List.filter_cons, h1, h2]]
        rw [ih]

/-- C3: numeric cell parsing first removes ordinary and non-breaking
spaces, converts the comma decimal separator to a period, then parses as
a float; parse failure coerces to `0.0`; and the cleaned
`"1\u00A0234,50"` parses to the double `5429388417957888 * 2 ^ (-42)`,
which is exactly `1234.50`, the value a period-decimal parser produces. -/
theorem claim_C3_parse_numeric :
    toNumericCell "1\u00A0234,50".data = PyVal.finite false (2469 * 2 ^ 41) (-42)
    ∧ pyValQ (toNumericCell "1\u00A0234,50".data) = some (2469 / 2)
    ∧ (∀ l : Str, pdParseNum (cleanNumCell l) = none →
        toNumericCell l = PyVal.finite false 0 0)
    ∧ (∀ l : Str, cleanNumCell l =
        (l.filter (fun c => ¬(c = ' ' ∨ c = '\u00A0'))).map
          (fun c => if c = ',' then '.' else c)) := by
  refine ⟨by decide, ?_, ?_, cleanNumCell_eq⟩
  · have h : toNumericCell "1\u00A0234,50".data =
        PyVal.finite false (2469 * 2 ^ 41) (-42) := by decide
    rw [h]
    simp only [pyValQ, Option.some_inj]
    rw [if_neg (by simp : ¬ false = true)]
    have h2 : ((2 : ℚ)) ^ (-42 : ℤ) = ((2 : ℚ) ^ (42 : ℕ))⁻¹ := by
      rw [show ((-42 : ℤ)) = -((42 : ℕ) : ℤ) by norm_num, zpow_neg, zpow_natCast]
    rw [h2]
    norm_num
  · intro l h
    unfold toNumericCell
    rw [h]

/-- Witness for C3 at a non-numeric cell: the parse fails and the cell
value coerces to `0.0`. -/
theorem claim_C3_parse_numeric_witness :
    pdParseNum (cleanNumCell "abc".data) = none
    ∧ toNumericCell "abc".data = PyVal.finite false 0 0 :=
  ⟨by decide, claim_C3_parse_numeric.2.2.1 "abc".data (by decide)⟩

/-! ### Decimal rendering and base-2 logarithm facts (towards C7) -/

lemma digVal_digitChar : ∀ m < 10, digVal (Nat.digitChar m) = m := by decide

lemma isDigit_digitChar : ∀ m < 10, (Nat.digitChar m).isDigit := by decide

lemma natOfDigits_snoc (l : Str) (c : Char) :
    natOfDigits (l ++ [c]) = 10 * natOfDigits l + digVal c := by
  unfold natOfDigits
  rw [List.foldl_append]
  simp [Nat.mul_comm]

lemma natDecAux_spec : ∀ fuel n, n < fuel →
    natOfDigits (natDecAux fuel n) = n ∧ (∀ c ∈ natDecAux fuel n, c.isDigit) ∧
      natDecAux fuel n ≠ [] := by
  intro fuel
  induction fuel with
  | zero => intro n h; exact absurd h (Nat.not_lt_zero n)
  | succ f ih =>
    intro n h
    rw [natDecAux]
    by_cases h10 : n < 10
    · rw [if_pos h10]
      refine ⟨?_, ?_, by simp⟩
      · simp [natOfDigits, digVal_digitChar n h10]
      · intro c hc
        simp only [List.mem_singleton] at hc
        subst hc
        exact isDigit_digitChar n h10
    · rw [if_neg h10]
      have hlt : n / 10 < f := by omega
      rcases ih (n / 10) hlt with ⟨ih1, ih2, _⟩
      refine ⟨?_, ?_, by simp⟩
      · rw [natOfDigits_snoc, ih1, digVal_digitChar (n % 10) (by omega)]
        omega
      · intro c hc
        rcases List.mem_append.mp hc with hm | hm
        · exact ih2 c hm
        · simp only [List.mem_singleton] at hm
          subst hm
          exact isDigit_digitChar (n % 10) (by omega)

lemma natDec_spec (n : ℕ) :
    natOfDigits (natDec n) = n ∧ (∀ c ∈ natDec n, c.isDigit) ∧ natDec n ≠ [] :=
  natDecAux_spec (n + 1) n (by omega)

lemma log2Aux_spec : ∀ fuel n, 1 ≤ n → n ≤ fuel →
    2 ^ log2Aux fuel n ≤ n ∧ n < 2 ^ (log2Aux fuel n + 1) := by
  intro fuel
  induction fuel with
  | zero => intro n h1 h2; omega
  | succ f ih =>
    intro n h1 h2
    rw [log2Aux]
    by_cases hle : n ≤ 1
    · rw [if_pos hle]
      constructor
      · simpa using h1
      · have : n = 1 := by omega
        simp [this]
    · rw [if_neg hle]
      have h2' : n / 2 ≤ f := by omega
      have h1' : 1 ≤ n / 2 := by omega
      rcases ih (n / 2) h1' h2' with ⟨ihl, ihr⟩
      constructor
      · calc 2 ^ (log2Aux f (n / 2) + 1) = 2 ^ log2Aux f (n / 2) * 2 := by rw [pow_succ]
          _ ≤ (n / 2) * 2 := Nat.mul_le_mul_right 2 ihl
          _ ≤ n := by omega
      · have step : n < (n / 2 + 1) * 2 := by omega
        calc n < (n / 2 + 1) * 2 := step
          _ ≤ 2 ^ (log2Aux f (n / 2) + 1) * 2 :=
              Nat.mul_le_mul_right 2 (Nat.succ_le_of_lt ihr)
          _ = 2 ^ (log2Aux f (n / 2) + 1 + 1) := (pow_succ 2 _).symm

lemma log2N_spec (n : ℕ) (h : 1 ≤ n) : 2 ^ log2N n ≤ n ∧ n < 2 ^ (log2N n + 1) :=
  log2Aux_spec n n h le_rfl

/-! ### Bridging integer computation to rational bounds -/

lemma zpow_toNat (c : ℤ) (hc : 0 ≤ c) : (2 : ℚ) ^ c = (2 : ℚ) ^ c.toNat := by
  rw [← zpow_natCast, Int.toNat_of_nonneg hc]

lemma natCast_pow2 (j : ℕ) : ((2 ^ j : ℕ) : ℚ) = (2 : ℚ) ^ j := by push_cast; ring

lemma zpow_neg_toNat (c : ℤ) (hc : c < 0) :
    (2 : ℚ) ^ c = ((2 : ℚ) ^ (-c).toNat)⁻¹ := by
  rw [← zpow_toNat (-c) (by omega), ← zpow_neg, neg_neg]

lemma le2z_iff (c : ℤ) (A B : ℕ) (hB : 1 ≤ B) :
    le2z c A B = true ↔ (2 : ℚ) ^ c ≤ (A : ℚ) / (B : ℚ) := by
  have hBq : (0 : ℚ) < (B : ℚ) := by exact_mod_cast hB
  unfold le2z
  by_cases hc : 0 ≤ c
  · rw [if_pos hc, decide_eq_true_eq, le_div_iff₀ hBq, zpow_toNat c hc]
    constructor
    · intro h
      have hcast : ((B * 2 ^ c.toNat : ℕ) : ℚ) ≤ (A : ℚ) := by exact_mod_cast h
      push_cast at hcast
      linarith
    · intro h
      have hcast : ((B * 2 ^ c.toNat : ℕ) : ℚ) ≤ (A : ℚ) := by push_cast; linarith
      exact_mod_cast hcast
  · have hpos : (0 : ℚ) < (2 : ℚ) ^ (-c).toNat := by positivity
    rw [if_neg hc, decide_eq_true_eq, le_div_iff₀ hBq, zpow_neg_toNat c (by omega),
      inv_mul_le_iff₀ hpos]
    constructor
    · intro h
      have hcast : ((B : ℕ) : ℚ) ≤ ((A * 2 ^ (-c).toNat : ℕ) : ℚ) := by exact_mod_cast h
      push_cast at hcast
      linarith
    · intro h
      have hcast : ((B : ℕ) : ℚ) ≤ ((A * 2 ^ (-c).toNat : ℕ) : ℚ) := by push_cast; linarith
      exact_mod_cast hcast

lemma flogP_spec (A B : ℕ) (hA : 1 ≤ A) (hB : 1 ≤ B) :
    (2 : ℚ) ^ flogP A B ≤ (A : ℚ) / (B : ℚ) ∧
      (A : ℚ) / (B : ℚ) < (2 : ℚ) ^ (flogP A B + 1) := by
  have hBq : (0 : ℚ) < (B : ℚ) := by exact_mod_cast hB
  have hAq : (0 : ℚ) < (A : ℚ) := by exact_mod_cast hA
  rcases log2N_spec A hA with ⟨hA1, hA2⟩
  rcases log2N_spec B hB with ⟨hB1, hB2⟩
  have hA1q : (2 : ℚ) ^ (log2N A : ℤ) ≤ (A : ℚ) := by
    rw [zpow_natCast]
    exact_mod_cast hA1
  have hA2q : (A : ℚ) < (2 : ℚ) ^ ((log2N A : ℤ) + 1) := by
    rw [show ((log2N A : ℤ) + 1) = ((log2N A + 1 : ℕ) : ℤ) by push_cast; ring, zpow_natCast]
    exact_mod_cast hA2
  have hB1q : (2 : ℚ) ^ (log2N B : ℤ) ≤ (B : ℚ) := by
    rw [zpow_natCast]
    exact_mod_cast hB1
  have hB2q : (B : ℚ) < (2 : ℚ) ^ ((log2N B : ℤ) + 1) := by
    rw [show ((log2N B : ℤ) + 1) = ((log2N B + 1 : ℕ) : ℤ) by push_cast; ring, zpow_natCast]
    exact_mod_cast hB2
  have hupper : (A : ℚ) / (B : ℚ) < (2 : ℚ) ^ ((log2N A : ℤ) - (log2N B : ℤ) + 1) := by
    rw [div_lt_iff₀ hBq]
    calc (A : ℚ) < (2 : ℚ) ^ ((log2N A : ℤ) + 1) := hA2q
      _ = (2 : ℚ) ^ ((log2N A : ℤ) - (log2N B : ℤ) + 1) * (2 : ℚ) ^ (log2N B : ℤ) := by
          rw [← zpow_add₀ (by norm_num : (2:ℚ) ≠ 0)]
          ring_nf
      _ ≤ (2 : ℚ) ^ ((log2N A : ℤ) - (log2N B : ℤ) + 1) * (B : ℚ) := by
          have hpos : (0:ℚ) < (2 : ℚ) ^ ((log2N A : ℤ) - (log2N B : ℤ) + 1) :=
            zpow_pos (by norm_num) _
          nlinarith
  have hlower : (2 : ℚ) ^ ((log2N A : ℤ) - (log2N B : ℤ) - 1) < (A : ℚ) / (B : ℚ) := by
    rw [lt_div_iff₀ hBq]
    calc (2 : ℚ) ^ ((log2N A : ℤ) - (log2N B : ℤ) - 1) * (B : ℚ)
        < (2 : ℚ) ^ ((log2N A : ℤ) - (log2N B : ℤ) - 1) * (2 : ℚ) ^ ((log2N B : ℤ) + 1) := by
          have hpos : (0:ℚ) < (2 : ℚ) ^ ((log2N A : ℤ) - (log2N B : ℤ) - 1) :=
            zpow_pos (by norm_num) _
          nlinarith
      _ = (2 : ℚ) ^ (log2N A : ℤ) := by
          rw [← zpow_add₀ (by norm_num : (2:ℚ) ≠ 0)]
          ring_nf
      _ ≤ (A : ℚ) := hA1q
  unfold flogP
  by_cases hcond : le2z ((log2N A : ℤ) - (log2N B : ℤ)) A B = true
  · rw [if_pos hcond]
    exact ⟨(le2z_iff _ A B hB).mp hcond, hupper⟩
  · rw [if_neg hcond]
    have hnot : ¬ (2 : ℚ) ^ ((log2N A : ℤ) - (log2N B : ℤ)) ≤ (A : ℚ) / (B : ℚ) :=
      fun hcontra => hcond ((le2z_iff _ A B hB).mpr hcontra)
    push_neg at hnot
    constructor
    · exact le_of_lt hlower
    · rw [show (log2N A : ℤ) - (log2N B : ℤ) - 1 + 1 = (log2N A : ℤ) - (log2N B : ℤ) by ring]
      exact hnot

/-! ### Representability and the correctness of the rounding kernel -/

lemma two_zpow_natCast (j : ℕ) : (2 : ℚ) ^ ((j : ℤ)) = (2 : ℚ) ^ j := zpow_natCast 2 j

lemma two_zpow_1024 : (2 : ℚ) ^ (1024 : ℤ) = (2 : ℚ) ^ (1024 : ℕ) := zpow_natCast 2 1024

lemma rep_zero : Representable 0 :=
  ⟨0, 0, by norm_num, by norm_num, by norm_num, by
    rw [abs_zero]
    exact zpow_pos (by norm_num) _⟩

lemma rep_neg {q : ℚ} (h : Representable q) : Representable (-q) := by
  obtain ⟨m, k, hval, hm, hk, hb⟩ := h
  exact ⟨-m, k, by rw [hval]; push_cast; ring, by simpa using hm, hk, by rwa [abs_neg]⟩

lemma rep_natCast_of_lt {t : ℕ} (h : t < 2 ^ 53) : Representable (t : ℚ) := by
  refine ⟨t, 0, by norm_num, by simpa using h, by norm_num, ?_⟩
  rw [abs_of_nonneg (by positivity), two_zpow_1024]
  have h1 : (t : ℚ) < ((2 ^ 53 : ℕ) : ℚ) := by exact_mod_cast h
  have h2 : ((2 ^ 53 : ℕ) : ℚ) < (2 : ℚ) ^ (1024 : ℕ) := by
    rw [natCast_pow2]
    exact pow_lt_pow_right₀ (by norm_num) (by norm_num)
  linarith

lemma scaledPair_val (A B : ℕ) (e : ℤ) (hB : 1 ≤ B) :
    ((scaledPair A B e).1 : ℚ) / ((scaledPair A B e).2 : ℚ) =
        ((A : ℚ) / (B : ℚ)) / (2 : ℚ) ^ e
    ∧ 1 ≤ (scaledPair A B e).2 := by
  unfold scaledPair
  by_cases he : 0 ≤ e
  · rw [if_pos he]
    constructor
    · simp only
      rw [zpow_toNat e he, div_div]
      push_cast
      ring_nf
    · simp only
      exact Nat.one_le_iff_ne_zero.mpr (by positivity)
  · rw [if_neg he]
    constructor
    · simp only
      rw [zpow_neg_toNat e (by omega), div_eq_mul_inv ((A : ℚ) / (B : ℚ)), inv_inv]
      push_cast
      ring
    · simp only
      exact hB

lemma natDiv_bounds (A B : ℕ) (hB : 1 ≤ B) :
    ((A / B : ℕ) : ℚ) ≤ (A : ℚ) / (B : ℚ) ∧
      (A : ℚ) / (B : ℚ) < ((A / B : ℕ) : ℚ) + 1 := by
  have hBq : (0 : ℚ) < (B : ℚ) := by exact_mod_cast hB
  constructor
  · rw [le_div_iff₀ hBq]
    have h : (A / B) * B ≤ A := Nat.div_mul_le_self A B
    exact_mod_cast h
  · rw [div_lt_iff₀ hBq]
    have hmod : A % B < B := Nat.mod_lt A (by omega)
    have h : A < (A / B + 1) * B := by
      calc A = B * (A / B) + A % B := (Nat.div_add_mod A B).symm
        _ < B * (A / B) + B := by omega
        _ = (A / B + 1) * B := by ring
    exact_mod_cast h

lemma roundHE_le (A B : ℕ) : roundHalfEven A B ≤ A / B + 1 := by
  show (if 2 * (A % B) < B then A / B
      else if B < 2 * (A % B) then A / B + 1
      else if (A / B) % 2 = 0 then A / B else A / B + 1) ≤ A / B + 1
  split_ifs <;> omega

lemma roundHE_exact (A B : ℕ) (hB : 1 ≤ B) (hdvd : B ∣ A) :
    roundHalfEven A B = A / B := by
  show (if 2 * (A % B) < B then A / B
      else if B < 2 * (A % B) then A / B + 1
      else if (A / B) % 2 = 0 then A / B else A / B + 1) = A / B
  have hr : A % B = 0 := Nat.mod_eq_zero_of_dvd hdvd
  rw [hr]
  rw [if_pos (by omega)]

lemma roundPosToDouble_eq (A B : ℕ) :
    roundPosToDouble A B =
      if ovf (roundHalfEven (scaledPair A B (max (flogP A B - 52) (-1074))).1
          (scaledPair A B (max (flogP A B - 52) (-1074))).2) (max (flogP A B - 52) (-1074))
      then none
      else some (roundHalfEven (scaledPair A B (max (flogP A B - 52) (-1074))).1
          (scaledPair A B (max (flogP A B - 52) (-1074))).2,
        max (flogP A B - 52) (-1074)) := rfl

lemma roundPos_exact (m : ℕ) (hm : 1 ≤ m) (hrep : Representable (m : ℚ)) :
    ∃ n : ℕ, ∃ e : ℤ, roundPosToDouble m 1 = some (n, e) ∧
      ((n : ℚ) * (2 : ℚ) ^ e = (m : ℚ)) := by
  obtain ⟨m0, k, hval, hm0, hk, hbound⟩ := hrep
  have hmq : (0 : ℚ) < (m : ℚ) := by exact_mod_cast hm
  obtain ⟨hf1, hf2⟩ := flogP_spec m 1 hm le_rfl
  norm_num at hf1 hf2
  have h2kpos : (0 : ℚ) < (2 : ℚ) ^ k := zpow_pos (by norm_num) k
  have hm0pos : (0 : ℤ) < m0 := by
    by_contra hneg
    push_neg at hneg
    have hq : (m0 : ℚ) ≤ 0 := by exact_mod_cast hneg
    nlinarith [hval]
  have hm0q : (m0 : ℚ) < (2 : ℚ) ^ (53 : ℕ) := by
    have h1 : m0 < 2 ^ 53 := by omega
    calc (m0 : ℚ) < ((2 ^ 53 : ℤ) : ℚ) := by exact_mod_cast h1
      _ = (2 : ℚ) ^ (53 : ℕ) := by push_cast; ring
  have hup : (m : ℚ) < (2 : ℚ) ^ (k + 53) := by
    rw [hval, zpow_add₀ (by norm_num : (2 : ℚ) ≠ 0) k 53]
    have h53 : (2 : ℚ) ^ (53 : ℤ) = (2 : ℚ) ^ (53 : ℕ) := zpow_natCast 2 53
    rw [h53]
    nlinarith [h2kpos]
  have hfk : flogP m 1 ≤ k + 52 := by
    have hlt : (2 : ℚ) ^ flogP m 1 < (2 : ℚ) ^ (k + 53) := lt_of_le_of_lt hf1 hup
    have := (zpow_lt_zpow_iff_right₀ (by norm_num : (1 : ℚ) < 2)).mp hlt
    omega
  have hek : max (flogP m 1 - 52) (-1074) ≤ k := by omega
  have hm1024 : m < 2 ^ 1024 := by
    have h1 : (m : ℚ) < (2 : ℚ) ^ (1024 : ℕ) := by
      rw [← two_zpow_1024]
      calc (m : ℚ) = |(m : ℚ)| := (abs_of_nonneg (by positivity)).symm
        _ < _ := hbound
    have h2 : (m : ℚ) < ((2 ^ 1024 : ℕ) : ℚ) := by rw [natCast_pow2]; exact h1
    exact_mod_cast h2
  set e := max (flogP m 1 - 52) (-1074) with hedef
  by_cases he : 0 ≤ e
  · have hk0 : 0 ≤ k := le_trans he hek
    have hmZ : (m : ℤ) = m0 * 2 ^ k.toNat := by
      have hq : ((m : ℤ) : ℚ) = ((m0 * 2 ^ k.toNat : ℤ) : ℚ) := by
        push_cast
        rw [hval, zpow_toNat k hk0]
      exact_mod_cast hq
    have hdvdZ : (2 : ℤ) ^ e.toNat ∣ (m : ℤ) := by
      rw [hmZ]
      exact Dvd.dvd.mul_left (pow_dvd_pow 2 (by omega : e.toNat ≤ k.toNat)) m0
    have hdvd : 2 ^ e.toNat ∣ m := by exact_mod_cast hdvdZ
    have hsp1 : (scaledPair m 1 e).1 = m := by unfold scaledPair; rw [if_pos he]
    have hsp2 : (scaledPair m 1 e).2 = 2 ^ e.toNat := by
      unfold scaledPair
      rw [if_pos he]
      exact one_mul _
    have hcancel : m / 2 ^ e.toNat * 2 ^ e.toNat = m := Nat.div_mul_cancel hdvd
    have hovf : ovf (m / 2 ^ e.toNat) e = false := by
      unfold ovf
      rw [if_pos he, decide_eq_false_iff_not]
      rw [hcancel]
      omega
    refine ⟨m / 2 ^ e.toNat, e, ?_, ?_⟩
    · rw [roundPosToDouble_eq, ← hedef, hsp1, hsp2,
        roundHE_exact m (2 ^ e.toNat) Nat.one_le_two_pow hdvd, hovf]
      rfl
    · rw [zpow_toNat e he]
      exact_mod_cast hcancel
  · have hsp1 : (scaledPair m 1 e).1 = m * 2 ^ (-e).toNat := by
      unfold scaledPair
      rw [if_neg he]
    have hsp2 : (scaledPair m 1 e).2 = 1 := by unfold scaledPair; rw [if_neg he]
    have hround : roundHalfEven (m * 2 ^ (-e).toNat) 1 = m * 2 ^ (-e).toNat := by
      rw [roundHE_exact _ 1 le_rfl (one_dvd _), Nat.div_one]
    have hovf : ovf (m * 2 ^ (-e).toNat) e = false := by
      unfold ovf
      rw [if_neg he, decide_eq_false_iff_not]
      intro hcontra
      have h2 : 2 ^ 1024 ≤ m :=
        Nat.le_of_mul_le_mul_right hcontra (Nat.pos_pow_of_pos _ (by omega))
      omega
    refine ⟨m * 2 ^ (-e).toNat, e, ?_, ?_⟩
    · rw [roundPosToDouble_eq, ← hedef, hsp1, hsp2, hround, hovf]
      rfl
    · rw [zpow_neg_toNat e (by omega)]
      rw [mul_inv_eq_iff_eq_mul₀ (by positivity)]
      push_cast
      ring

lemma roundPos_out (A B n : ℕ) (e : ℤ) (hA : 1 ≤ A) (hB : 1 ≤ B)
    (h : roundPosToDouble A B = some (n, e)) :
    n ≤ 2 ^ 53 ∧ -1074 ≤ e ∧ Representable ((n : ℚ) * (2 : ℚ) ^ e) := by
  rw [roundPosToDouble_eq] at h
  set E := max (flogP A B - 52) (-1074) with hEdef
  by_cases hovf : ovf (roundHalfEven (scaledPair A B E).1 (scaledPair A B E).2) E = true
  · rw [if_pos hovf] at h
    exact absurd h (by simp)
  · rw [if_neg hovf] at h
    simp only [Option.some_inj, Prod.mk.injEq] at h
    obtain ⟨hn, hE⟩ := h
    obtain ⟨hspv, hsp2⟩ := scaledPair_val A B E hB
    have hABpos : (0 : ℚ) < (A : ℚ) / (B : ℚ) := by
      apply div_pos <;> exact_mod_cast (by omega : (0 : ℕ) < _)
    obtain ⟨_, hflog2⟩ := flogP_spec A B hA hB
    -- the scaled value is below 2 ^ 53
    have hEb : flogP A B + 1 ≤ E + 53 := by omega
    have hslt : ((scaledPair A B E).1 : ℚ) / ((scaledPair A B E).2 : ℚ) <
        (2 : ℚ) ^ (53 : ℕ) := by
      rw [hspv, div_lt_iff₀ (zpow_pos (by norm_num) E)]
      calc (A : ℚ) / (B : ℚ) < (2 : ℚ) ^ (flogP A B + 1) := hflog2
        _ ≤ (2 : ℚ) ^ (E + 53) :=
            zpow_le_zpow_right₀ (by norm_num) hEb
        _ = (2 : ℚ) ^ (53 : ℕ) * (2 : ℚ) ^ E := by
            rw [← zpow_natCast (2 : ℚ) 53, ← zpow_add₀ (by norm_num : (2 : ℚ) ≠ 0)]
            ring_nf
    have hq53 : (scaledPair A B E).1 / (scaledPair A B E).2 < 2 ^ 53 := by
      obtain ⟨hdle, _⟩ := natDiv_bounds (scaledPair A B E).1 (scaledPair A B E).2 hsp2
      have hcast : (((scaledPair A B E).1 / (scaledPair A B E).2 : ℕ) : ℚ) <
          ((2 ^ 53 : ℕ) : ℚ) := by
        rw [natCast_pow2]
        exact lt_of_le_of_lt hdle hslt
      exact_mod_cast hcast
    have hn53 : n ≤ 2 ^ 53 := by
      have := roundHE_le (scaledPair A B E).1 (scaledPair A B E).2
      omega
    have hE1074 : -1074 ≤ e := by omega
    -- the overflow guard bounds the value
    have hvlt : (n : ℚ) * (2 : ℚ) ^ e < (2 : ℚ) ^ (1024 : ℤ) := by
      unfold ovf at hovf
      rw [hE] at hovf
      rw [hE] at hn
      rw [hn] at hovf
      by_cases he : 0 ≤ e
      · rw [if_pos he] at hovf
        simp only [decide_eq_true_eq] at hovf
        push_neg at hovf
        have hcast : ((n * 2 ^ e.toNat : ℕ) : ℚ) < ((2 ^ 1024 : ℕ) : ℚ) := by
          exact_mod_cast hovf
        push_cast at hcast
        rw [two_zpow_1024, zpow_toNat e he]
        push_cast
        linarith
      · rw [if_neg he] at hovf
        simp only [decide_eq_true_eq] at hovf
        push_neg at hovf
        have hcast : ((n : ℕ) : ℚ) < ((2 ^ 1024 * 2 ^ (-e).toNat : ℕ) : ℚ) := by
          exact_mod_cast hovf
        push_cast at hcast
        rw [two_zpow_1024, zpow_neg_toNat e (by omega), mul_inv_lt_iff₀ (by positivity)]
        push_cast
        linarith
    have habs : |(n : ℚ) * (2 : ℚ) ^ e| < (2 : ℚ) ^ (1024 : ℤ) := by
      rw [abs_of_nonneg (by positivity)]
      exact hvlt
    refine ⟨hn53, hE1074, ?_⟩
    by_cases hlt : n < 2 ^ 53
    · exact ⟨n, e, by push_cast; ring, by simpa using hlt, hE1074, habs⟩
    · have hn2 : n = 2 ^ 53 := by omega
      refine ⟨2 ^ 52, e + 1, ?_, by norm_num, by omega, habs⟩
      rw [hn2]
      push_cast
      rw [zpow_add₀ (by norm_num : (2 : ℚ) ≠ 0) e 1]
      ring_nf

/-! ### Character classes, strip/lower fixed points, parser evaluation -/

lemma toLower_of_isDigit (c : Char) (h : c.isDigit) : c.toLower = c := by
  simp only [Char.isDigit, Bool.and_eq_true, decide_eq_true_eq] at h
  obtain ⟨_, h2⟩ := h
  have h2' : c.val.toNat ≤ (57 : UInt32).toNat := h2
  have hlt : c.toNat ≤ 57 := by simpa using h2'
  simp only [Char.toLower]
  rw [if_neg (by omega)]

lemma not_space_of_isDigit (c : Char) (h : c.isDigit) : isPySpace c = false := by
  simp only [Char.isDigit, Bool.and_eq_true, decide_eq_true_eq] at h
  obtain ⟨h1, _⟩ := h
  have h1' : (48 : UInt32).toNat ≤ c.val.toNat := h1
  simp only [isPySpace]
  have hge : 48 ≤ c.toNat := by simpa using h1'
  have hne : ∀ d : Char, d.toNat < 48 → c ≠ d := by
    intro d hd he
    subst he
    omega
  simp [hne ' ' (by decide), hne '\t' (by decide), hne '\n' (by decide),
    hne '\r' (by decide), hne '\x0b' (by decide), hne '\x0c' (by decide)]

lemma ne_char_of_isDigit (c : Char) (h : c.isDigit) (d : Char) (hd : ¬ d.isDigit) :
    c ≠ d := by
  intro he
  subst he
  exact hd h

lemma dropWhile_eq_self_of_all {p : Char → Bool} {l : Str}
    (h : ∀ c ∈ l, p c = false) : l.dropWhile p = l := by
  cases l with
  | nil => rfl
  | cons c cs => simp [List.dropWhile_cons, h c (by simp)]

lemma pyStrip_eq_self {l : Str} (h : ∀ c ∈ l, isPySpace c = false) : pyStrip l = l := by
  unfold pyStrip
  rw [dropWhile_eq_self_of_all h,
    dropWhile_eq_self_of_all (fun c hc => h c (List.mem_reverse.mp hc)), List.reverse_reverse]

lemma pyStrip_digits {l : Str} (h : ∀ c ∈ l, c.isDigit) : pyStrip l = l :=
  pyStrip_eq_self (fun c hc => not_space_of_isDigit c (h c hc))

lemma pyLower_digits {l : Str} (h : ∀ c ∈ l, c.isDigit) : pyLower l = l := by
  unfold pyLower
  conv_rhs => rw [← List.map_id l]
  apply List.map_congr_left
  intro c hc
  exact toLower_of_isDigit c (h c hc)

lemma digits_ne_cons {l : Str} (h : ∀ c ∈ l, c.isDigit) (c0 : Char) (rest : Str)
    (hc0 : ¬ c0.isDigit) : l ≠ c0 :: rest := by
  intro he
  subst he
  exact hc0 (h c0 (by simp))

lemma underscoreOKAux_digits (p : Char) (l : Str) (h : ∀ c ∈ l, c.isDigit) :
    underscoreOKAux p l = true := by
  induction l generalizing p with
  | nil => rfl
  | cons c cs ih =>
    have hc : ¬ c = '_' := ne_char_of_isDigit c (h c (by simp)) '_' (by decide)
    cases cs with
    | nil =>
      show (if c = '_' then false else underscoreOKAux c []) = true
      rw [if_neg hc]
      rfl
    | cons d rest2 =>
      show (if c = '_' then p.isDigit && d.isDigit && underscoreOKAux d rest2
          else underscoreOKAux c (d :: rest2)) = true
      rw [if_neg hc]
      exact ih c (fun x hx => h x (List.mem_cons_of_mem _ hx))

lemma underscoreOK_digits {l : Str} (hne : l ≠ []) (h : ∀ c ∈ l, c.isDigit) :
    underscoreOK l = true := by
  cases l with
  | nil => rfl
  | cons c cs =>
    have hc : ¬ c = '_' := ne_char_of_isDigit c (h c (by simp)) '_' (by decide)
    rw [show underscoreOK (c :: cs) =
        (if c = '_' then false else underscoreOKAux c cs) from rfl, if_neg hc]
    exact underscoreOKAux_digits c cs (fun x hx => h x (List.mem_cons_of_mem _ hx))

lemma filter_ne_underscore_digits {l : Str} (h : ∀ c ∈ l, c.isDigit) :
    l.filter (fun c => c ≠ '_') = l := by
  apply List.filter_eq_self.mpr
  intro c hc
  simpa using ne_char_of_isDigit c (h c hc) '_' (by decide)

lemma parseMantExp_digits (d : Str) (hne : d ≠ []) (hd : ∀ c ∈ d, c.isDigit) :
    parseMantExp d = some (natOfDigits d, 0) := by
  unfold parseMantExp mantNoFrac
  rw [List.takeWhile_eq_self_iff.mpr hd, List.dropWhile_eq_nil_iff.mpr hd]
  dsimp only
  rw [if_neg hne]
  rfl

lemma splitSign_of_head_digit (c : Char) (cs : Str) (hc : c.isDigit) :
    splitSign (c :: cs) = (false, c :: cs) := by
  show (if c = '+' then (false, cs)
      else if c = '-' then (true, cs)
      else (false, c :: cs)) = (false, c :: cs)
  rw [if_neg (ne_char_of_isDigit c hc '+' (by decide)),
    if_neg (ne_char_of_isDigit c hc '-' (by decide))]

lemma splitSign_minus (cs : Str) : splitSign ('-' :: cs) = (true, cs) := by
  show (if '-' = '+' then (false, cs)
      else if '-' = '-' then (true, cs)
      else (false, '-' :: cs)) = (true, cs)
  rw [if_neg (by decide), if_pos rfl]

lemma parseBody_digits (u neg : Bool) (d : Str) (hne : d ≠ [])
    (hd : ∀ c ∈ d, c.isDigit) :
    parseBody u neg d = some (mkFloat neg (natOfDigits d) 0) := by
  unfold parseBody
  rw [pyLower_digits hd]
  have hinf : ¬ (d = "inf".data ∨ d = "infinity".data) := by
    intro h
    rcases h with h | h
    · rw [show "inf".data = 'i' :: "nf".data from by decide] at h
      exact digits_ne_cons hd 'i' _ (by decide) h
    · rw [show "infinity".data = 'i' :: "nfinity".data from by decide] at h
      exact digits_ne_cons hd 'i' _ (by decide) h
  have hnan : ¬ (d = "nan".data) := by
    intro h
    rw [show "nan".data = 'n' :: "an".data from by decide] at h
    exact digits_ne_cons hd 'n' _ (by decide) h
  rw [if_neg hinf, if_neg hnan]
  cases u with
  | false =>
    rw [if_neg Bool.false_ne_true]
    dsimp only
    rw [parseMantExp_digits d hne hd]
  | true =>
    rw [if_pos rfl, underscoreOK_digits hne hd]
    rw [if_pos rfl]
    dsimp only
    rw [filter_ne_underscore_digits hd, parseMantExp_digits d hne hd]

lemma pyFloat_digits (d : Str) (hne : d ≠ []) (hd : ∀ c ∈ d, c.isDigit) :
    pyFloat d = some (mkFloat false (natOfDigits d) 0) := by
  obtain ⟨c, cs, rfl⟩ := List.exists_cons_of_ne_nil hne
  unfold pyFloat parseFloatAux
  rw [pyStrip_digits hd, splitSign_of_head_digit c cs (hd c (by simp))]
  exact parseBody_digits true false (c :: cs) hne hd

lemma pyFloat_intDec (z : ℤ) :
    pyFloat (intDec z) =
      some (mkFloat (decide (z < 0)) (natOfDigits (natDec z.natAbs)) 0) := by
  obtain ⟨hval, hdig, hne⟩ := natDec_spec z.natAbs
  by_cases hz : z < 0
  · have hdec : (decide (z < 0)) = true := decide_eq_true_eq.mpr hz
    rw [hdec]
    rw [show intDec z = '-' :: natDec z.natAbs from by unfold intDec; rw [if_pos hz]]
    unfold pyFloat parseFloatAux
    have hstrip : pyStrip ('-' :: natDec z.natAbs) = '-' :: natDec z.natAbs := by
      apply pyStrip_eq_self
      intro c hc
      rcases List.mem_cons.mp hc with h | h
      · subst h; decide
      · exact not_space_of_isDigit c (hdig c h)
    rw [hstrip, splitSign_minus]
    exact parseBody_digits true true _ hne hdig
  · have hdec : (decide (z < 0)) = false := decide_eq_false_iff_not.mpr hz
    rw [hdec]
    rw [show intDec z = natDec z.natAbs from by unfold intDec; rw [if_neg hz]]
    exact pyFloat_digits _ hne hdig

lemma mkFloat_finite (neg : Bool) (M : ℕ) (E : ℤ) (ng : Bool) (n : ℕ) (e : ℤ)
    (h : mkFloat neg M E = .finite ng n e) :
    n ≤ 2 ^ 53 ∧ Representable ((n : ℚ) * (2 : ℚ) ^ e) := by
  unfold mkFloat at h
  by_cases hM : M = 0
  · rw [if_pos hM] at h
    cases h
    refine ⟨Nat.zero_le _, ?_⟩
    simpa using rep_zero
  · rw [if_neg hM] at h
    dsimp only at h
    by_cases hE : 0 ≤ E
    · rw [if_pos hE] at h
      dsimp only at h
      cases hr : roundPosToDouble (M * 10 ^ E.toNat) 1 with
      | none => rw [hr] at h; cases h
      | some p =>
        obtain ⟨n0, e0⟩ := p
        rw [hr] at h
        cases h
        have hA : 1 ≤ M * 10 ^ E.toNat :=
          Nat.one_le_iff_ne_zero.mpr (by positivity)
        obtain ⟨h1, _, h3⟩ := roundPos_out _ _ _ _ hA le_rfl hr
        exact ⟨h1, h3⟩
    · rw [if_neg hE] at h
      dsimp only at h
      cases hr : roundPosToDouble M (10 ^ (-E).toNat) with
      | none => rw [hr] at h; cases h
      | some p =>
        obtain ⟨n0, e0⟩ := p
        rw [hr] at h
        cases h
        have hB : 1 ≤ 10 ^ (-E).toNat :=
          Nat.one_le_iff_ne_zero.mpr (by positivity)
        obtain ⟨h1, _, h3⟩ :=
          roundPos_out _ _ _ _ (Nat.one_le_iff_ne_zero.mpr hM) hB hr
        exact ⟨h1, h3⟩

lemma parseBody_out (u ng0 : Bool) (body : Str) (v : PyVal)
    (h : parseBody u ng0 body = some v) :
    v = .inf ng0 ∨ v = .nan ∨ ∃ M : ℕ, ∃ E : ℤ, v = mkFloat ng0 M E := by
  unfold parseBody at h
  dsimp only at h
  by_cases h1 : pyLower body = "inf".data ∨ pyLower body = "infinity".data
  · rw [if_pos h1] at h
    exact Or.inl (Option.some_inj.mp h).symm
  · rw [if_neg h1] at h
    by_cases h2 : pyLower body = "nan".data
    · rw [if_pos h2] at h
      exact Or.inr (Or.inl (Option.some_inj.mp h).symm)
    · rw [if_neg h2] at h
      split at h
      · cases h
      · split at h
        · exact Or.inr (Or.inr ⟨_, _, (Option.some_inj.mp h).symm⟩)
        · cases h

lemma parseFloatAux_finite (u : Bool) (l : Str) (ng : Bool) (n : ℕ) (e : ℤ)
    (h : parseFloatAux u l = some (.finite ng n e)) :
    n ≤ 2 ^ 53 ∧ Representable ((n : ℚ) * (2 : ℚ) ^ e) := by
  unfold parseFloatAux at h
  rcases parseBody_out _ _ _ _ h with h1 | h1 | ⟨M, E, h1⟩
  · cases h1
  · cases h1
  · exact mkFloat_finite _ _ _ _ _ _ h1.symm

lemma truncFloat_rep (ng : Bool) (n : ℕ) (e : ℤ) (z : ℤ)
    (hn : n ≤ 2 ^ 53) (hrep : Representable ((n : ℚ) * (2 : ℚ) ^ e))
    (h : truncFloat (.finite ng n e) = some z) :
    Representable ((z : ℚ)) := by
  unfold truncFloat at h
  dsimp only at h
  by_cases he : 0 ≤ e
  · rw [if_pos he] at h
    have hval : ((n * 2 ^ e.toNat : ℕ) : ℚ) = (n : ℚ) * (2 : ℚ) ^ e := by
      rw [zpow_toNat e he]
      push_cast
      ring
    have hm : Representable (((n * 2 ^ e.toNat : ℕ) : ℚ)) := hval ▸ hrep
    cases ng with
    | false =>
      rw [if_neg Bool.false_ne_true] at h
      have hz : z = ((n * 2 ^ e.toNat : ℕ) : ℤ) := (Option.some_inj.mp h).symm
      rw [hz]
      exact_mod_cast hm
    | true =>
      rw [if_pos rfl] at h
      have hz : z = -((n * 2 ^ e.toNat : ℕ) : ℤ) := (Option.some_inj.mp h).symm
      rw [hz, Int.cast_neg, Int.cast_natCast]
      exact rep_neg hm
  · rw [if_neg he] at h
    have h2t : 2 ≤ 2 ^ (-e).toNat := by
      calc (2 : ℕ) = 2 ^ 1 := (pow_one 2).symm
        _ ≤ 2 ^ (-e).toNat := Nat.pow_le_pow_right (by omega) (by omega)
    have hlt : n / 2 ^ (-e).toNat < 2 ^ 53 := by
      have h1 : n / 2 ^ (-e).toNat ≤ n / 2 :=
        Nat.div_le_div_left h2t (by omega)
      have h2 : n / 2 ≤ 2 ^ 53 / 2 := Nat.div_le_div_right hn
      have h3 : (2 : ℕ) ^ 53 / 2 < 2 ^ 53 := by norm_num
      omega
    have hm : Representable (((n / 2 ^ (-e).toNat : ℕ) : ℚ)) :=
      rep_natCast_of_lt hlt
    cases ng with
    | false =>
      rw [if_neg Bool.false_ne_true] at h
      have hz : z = ((n / 2 ^ (-e).toNat : ℕ) : ℤ) := (Option.some_inj.mp h).symm
      rw [hz]
      exact_mod_cast hm
    | true =>
      rw [if_pos rfl] at h
      have hz : z = -((n / 2 ^ (-e).toNat : ℕ) : ℤ) := (Option.some_inj.mp h).symm
      rw [hz, Int.cast_neg, Int.cast_natCast]
      exact rep_neg hm

lemma np_output (l : Str) :
    normPhoneL l = [] ∨
      (∃ z : ℤ, Representable ((z : ℚ)) ∧ normPhoneL l = intDec z) ∨
      (normPhoneL l ≠ [] ∧ ∀ c ∈ normPhoneL l, c.isDigit) := by
  unfold normPhoneL
  dsimp only
  by_cases h1 : pyLower (pyStrip l) = "nan".data ∨ pyLower (pyStrip l) = "none".data ∨
      pyStrip l = []
  · rw [if_pos h1]
    exact Or.inl rfl
  · rw [if_neg h1]
    cases hpf : pyFloat ((pyStrip l).map (fun ch => if ch = ',' then '.' else ch)) with
    | none =>
      by_cases hemp : (pyStrip l).filter Char.isDigit = []
      · exact Or.inl hemp
      · exact Or.inr (Or.inr ⟨hemp, fun c hc => (List.mem_filter.mp hc).2⟩)
    | some v =>
      dsimp only
      cases v with
      | inf b =>
        by_cases hemp : (pyStrip l).filter Char.isDigit = []
        · exact Or.inl hemp
        · exact Or.inr (Or.inr ⟨hemp, fun c hc => (List.mem_filter.mp hc).2⟩)
      | nan =>
        by_cases hemp : (pyStrip l).filter Char.isDigit = []
        · exact Or.inl hemp
        · exact Or.inr (Or.inr ⟨hemp, fun c hc => (List.mem_filter.mp hc).2⟩)
      | finite ngv nv ev =>
        cases htf : truncFloat (.finite ngv nv ev) with
        | none => exact absurd htf (by simp [truncFloat])
        | some z =>
          obtain ⟨hn53, hrep⟩ := parseFloatAux_finite true _ _ _ _ hpf
          exact Or.inr (Or.inl ⟨z, truncFloat_rep _ _ _ _ hn53 hrep htf, rfl⟩)

lemma mkFloat_nat_some (neg : Bool) (m n : ℕ) (e : ℤ) (hm : ¬ m = 0)
    (hr : roundPosToDouble m 1 = some (n, e)) :
    mkFloat neg m 0 = .finite neg n e := by
  unfold mkFloat
  rw [if_neg hm]
  dsimp only
  rw [if_pos (le_refl (0 : ℤ))]
  dsimp only
  rw [show m * 10 ^ (0 : ℤ).toNat = m from by simp, hr]

lemma mkFloat_nat_inf (neg : Bool) (m : ℕ) (hm : ¬ m = 0)
    (hr : roundPosToDouble m 1 = none) :
    mkFloat neg m 0 = .inf neg := by
  unfold mkFloat
  rw [if_neg hm]
  dsimp only
  rw [if_pos (le_refl (0 : ℤ))]
  dsimp only
  rw [show m * 10 ^ (0 : ℤ).toNat = m from by simp, hr]

lemma mkFloat_nat_exact (neg : Bool) (m : ℕ) (hm : 1 ≤ m)
    (hrep : Representable ((m : ℚ))) :
    ∃ n : ℕ, ∃ e : ℤ, mkFloat neg m 0 = .finite neg n e ∧
      (n : ℚ) * (2 : ℚ) ^ e = (m : ℚ) := by
  obtain ⟨n, e, hr, hv⟩ := roundPos_exact m hm hrep
  exact ⟨n, e, mkFloat_nat_some neg m n e (by omega) hr, hv⟩

lemma np_on_digits (d : Str) (hne : d ≠ []) (hd : ∀ c ∈ d, c.isDigit) :
    normPhoneL d = d ∨
      ∃ z : ℤ, Representable ((z : ℚ)) ∧ normPhoneL d = intDec z := by
  have hstrip : pyStrip d = d := pyStrip_digits hd
  have hcond : ¬(pyLower d = "nan".data ∨ pyLower d = "none".data ∨ d = []) := by
    intro h
    rcases h with h | h | h
    · rw [pyLower_digits hd] at h
      rw [show "nan".data = 'n' :: "an".data from by decide] at h
      exact digits_ne_cons hd 'n' _ (by decide) h
    · rw [pyLower_digits hd] at h
      rw [show "none".data = 'n' :: "one".data from by decide] at h
      exact digits_ne_cons hd 'n' _ (by decide) h
    · exact hne h
  have hmap : d.map (fun ch => if ch = ',' then '.' else ch) = d := by
    have h1 : d.map (fun ch => if ch = ',' then '.' else ch) = d.map id :=
      List.map_congr_left (fun a ha => by
        rw [if_neg (ne_char_of_isDigit a (hd a ha) ',' (by decide))]
        rfl)
    rw [h1, List.map_id]
  have hpf := pyFloat_digits d hne hd
  have hfilter : d.filter Char.isDigit = d :=
    List.filter_eq_self.mpr (fun a ha => hd a ha)
  unfold normPhoneL
  dsimp only
  rw [hstrip, if_neg hcond, hmap, hpf, hfilter]
  dsimp only
  by_cases hM0 : natOfDigits d = 0
  · right
    refine ⟨0, by simpa using rep_zero, ?_⟩
    rw [hM0]
    rfl
  · cases hr : roundPosToDouble (natOfDigits d) 1 with
    | none =>
      left
      rw [mkFloat_nat_inf false _ hM0 hr]
      rfl
    | some p =>
      obtain ⟨n, e⟩ := p
      right
      rw [mkFloat_nat_some false _ n e hM0 hr]
      obtain ⟨hn53, _, hrep⟩ := roundPos_out _ 1 n e (by omega) le_rfl hr
      cases htf : truncFloat (.finite false n e) with
      | none => exact absurd htf (by simp [truncFloat])
      | some z =>
        exact ⟨z, truncFloat_rep _ _ _ _ hn53 hrep htf, rfl⟩

lemma sign_natAbs (z : ℤ) :
    (if decide (z < 0) = true then -((z.natAbs : ℤ)) else ((z.natAbs : ℤ))) = z := by
  by_cases hz : z < 0
  · rw [if_pos (decide_eq_true_eq.mpr hz)]
    omega
  · rw [if_neg (by simpa using hz)]
    omega

lemma truncFloat_exact (b : Bool) (n : ℕ) (e : ℤ) (m : ℕ)
    (hv : (n : ℚ) * (2 : ℚ) ^ e = (m : ℚ)) :
    truncFloat (.finite b n e) =
      some (if b = true then -((m : ℤ)) else ((m : ℤ))) := by
  unfold truncFloat
  dsimp only
  by_cases he : 0 ≤ e
  · rw [if_pos he]
    have ht : n * 2 ^ e.toNat = m := by
      rw [zpow_toNat e he] at hv
      exact_mod_cast hv
    rw [ht]
  · rw [if_neg he]
    have hnval : n = m * 2 ^ (-e).toNat := by
      rw [zpow_neg_toNat e (by omega)] at hv
      rw [mul_inv_eq_iff_eq_mul₀ (by positivity)] at hv
      exact_mod_cast hv
    have ht : n / 2 ^ (-e).toNat = m := by
      rw [hnval]
      exact Nat.mul_div_cancel _ (Nat.pos_pow_of_pos _ (by omega))
    rw [ht]

lemma np_fix_int (z : ℤ) (hz : Representable ((z : ℚ))) :
    normPhoneL (intDec z) = intDec z := by
  obtain ⟨hval, hdig, hneN⟩ := natDec_spec z.natAbs
  by_cases hz0 : z.natAbs = 0
  · have hzz : z = 0 := by omega
    subst hzz
    decide
  · have hmem : ∀ c ∈ intDec z, c = '-' ∨ c.isDigit := by
      intro c hc
      unfold intDec at hc
      by_cases hzs : z < 0
      · rw [if_pos hzs] at hc
        rcases List.mem_cons.mp hc with h | h
        · exact Or.inl h
        · exact Or.inr (hdig c h)
      · rw [if_neg hzs] at hc
        exact Or.inr (hdig c hc)
    have hstrip : pyStrip (intDec z) = intDec z := by
      apply pyStrip_eq_self
      intro c hc
      rcases hmem c hc with h | h
      · subst h; decide
      · exact not_space_of_isDigit c h
    have hcond : ¬(pyLower (intDec z) = "nan".data ∨
        pyLower (intDec z) = "none".data ∨ intDec z = []) := by
      by_cases hzs : z < 0
      · have hform : intDec z = '-' :: natDec z.natAbs := by
          unfold intDec
          rw [if_pos hzs]
        rw [hform]
        have hlowc : pyLower ('-' :: natDec z.natAbs) =
            '-' :: pyLower (natDec z.natAbs) := rfl
        intro h
        rcases h with h | h | h
        · rw [hlowc, show "nan".data = 'n' :: "an".data from by decide] at h
          exact absurd (List.cons_eq_cons.mp h).1 (by decide)
        · rw [hlowc, show "none".data = 'n' :: "one".data from by decide] at h
          exact absurd (List.cons_eq_cons.mp h).1 (by decide)
        · exact List.cons_ne_nil _ _ h
      · have hform : intDec z = natDec z.natAbs := by
          unfold intDec
          rw [if_neg hzs]
        rw [hform]
        intro h
        rcases h with h | h | h
        · rw [pyLower_digits hdig,
            show "nan".data = 'n' :: "an".data from by decide] at h
          exact digits_ne_cons hdig 'n' _ (by decide) h
        · rw [pyLower_digits hdig,
            show "none".data = 'n' :: "one".data from by decide] at h
          exact digits_ne_cons hdig 'n' _ (by decide) h
        · exact hneN h
    have hmap : (intDec z).map (fun ch => if ch = ',' then '.' else ch) =
        intDec z := by
      have h1 : (intDec z).map (fun ch => if ch = ',' then '.' else ch) =
          (intDec z).map id :=
        List.map_congr_left (fun a ha => by
          rcases hmem a ha with h | h
          · subst h; rfl
          · rw [if_neg (ne_char_of_isDigit a h ',' (by decide))]
            rfl)
      rw [h1, List.map_id]
    have hrepm : Representable ((z.natAbs : ℚ)) := by
      have h2 : ((z.natAbs : ℚ)) = |(z : ℚ)| := by
        rw [Int.cast_natAbs, Int.cast_abs]
      rcases le_or_lt 0 z with hzs | hzs
      · have h3 : |(z : ℚ)| = ((z : ℚ)) := abs_of_nonneg (by exact_mod_cast hzs)
        rw [h2, h3]
        exact hz
      · have h3 : |(z : ℚ)| = -((z : ℚ)) := abs_of_neg (by exact_mod_cast hzs)
        rw [h2, h3]
        exact rep_neg hz
    obtain ⟨n, e, hmk, hv⟩ := mkFloat_nat_exact (decide (z < 0)) z.natAbs
      (by omega) hrepm
    have hpf0 := pyFloat_intDec z
    rw [hval, hmk] at hpf0
    have htf := truncFloat_exact (decide (z < 0)) n e z.natAbs hv
    rw [sign_natAbs z] at htf
    unfold normPhoneL
    dsimp only
    rw [hstrip, if_neg hcond, hmap, hpf0]
    dsimp only
    rw [htf]

lemma normPhoneL_nil : normPhoneL [] = [] := by decide

lemma normPhoneL_stable (l : Str) :
    normPhoneL (normPhoneL (normPhoneL l)) = normPhoneL (normPhoneL l) := by
  rcases np_output l with h | ⟨z, hz, h⟩ | ⟨hne, hdig⟩
  · rw [h, normPhoneL_nil, normPhoneL_nil]
  · rw [h, np_fix_int z hz, np_fix_int z hz]
  · rcases np_on_digits _ hne hdig with h2 | ⟨z, hz, h2⟩
    · rw [h2]
      exact h2
    · rw [h2, np_fix_int z hz]

lemma normalize_phone_eq (s : String) :
    normalize_phone s = ⟨normPhoneL s.data⟩ := rfl

lemma string_data_mk (l : Str) : String.data ⟨l⟩ = l := rfl

/-- C7 (amended): `normalize_phone` is idempotent after one application:
for every string `x`, applying it three times equals applying it twice.
Every output is empty, the decimal rendering of an exactly representable
truncated double (a fixed point of the function), or a digit-only string,
and on digit-only strings a further application either fixes the string or
produces such a fixed point. -/
theorem claim_C7_idempotent_after_first (s : String) :
    normalize_phone (normalize_phone (normalize_phone s)) =
      normalize_phone (normalize_phone s) := by
  simp only [normalize_phone_eq, string_data_mk]
  exact congrArg String.mk (normPhoneL_stable s.data)

end Carwash
